import Mathlib

/-!
# Verification of the `panda` argument splitter

Shallow embedding of `src/util/argument-splitter.ts`: a character-scanning
state machine that splits a command line into grouped arguments (plain words,
double-quoted spans, and backtick code spans of width 1-3), together with the
`SplitArgumentArray` container and its `restore` operation.

Strings are modelled as `List Char` (a JS string is a sequence of code units;
all delimiters involved are ASCII).  The character parameter of the scanner is
also a `List Char`, because the source passes either a one-character string
from `charAt`, the empty string as the synthetic end-of-input marker, or a
multi-character run from `'`'.repeat(n)`.  JS exceptions are modelled with
`Except`.
-/

set_option maxHeartbeats 1000000

/-- Type of group the argument is currently in (enum `GroupType`). -/
inductive GroupType where
  | New
  | None
  | DoubleQuote
  | CodeBacktick
deriving DecidableEq, Repr

/-- A single split argument (`class SplitArgument`): parsed content, group
type, and the index into the original string where the group started. -/
structure SplitArgument where
  content : List Char
  type : GroupType
  originalIndex : Nat
deriving DecidableEq, Repr

/-- Errors thrown by the splitter (`ArgumentSplitterError`).  The source uses
a single exception class with a message string; the two internal-consistency
throw sites are modelled by `internal` and the end-of-parse
`Unfinished group (type = ...)` throw by `unterminated` carrying the group. -/
inductive ArgumentSplitterError where
  | internal (msg : String)
  | unterminated (group : GroupType)
deriving DecidableEq, Repr

/-- Array-like interface to split arguments (`class SplitArgumentArray`). -/
structure SplitArgumentArray where
  original : List Char
  args : List SplitArgument
deriving DecidableEq, Repr

/-- ECMAScript `String.prototype.substring(a, b)` on a char-list, for
non-negative integer arguments: both indices are clamped to the string length
and swapped if `a > b`. -/
def jsSubstring (l : List Char) (a b : Nat) : List Char :=
  let fa := min a l.length
  let fb := min b l.length
  (l.take (max fa fb)).drop (min fa fb)

/-- `SplitArgumentArray.restore(start, end?)`:
`original.substring(args[start]?.originalIndex, args[end]?.originalIndex)`.
An out-of-range `start` yields `undefined`, which `substring` coerces to `0`;
an absent or out-of-range `end` yields `undefined`, which `substring` treats
as the string length. -/
def SplitArgumentArray.restore (r : SplitArgumentArray) (start : Nat)
    (stop : Option Nat) : List Char :=
  let a : Nat :=
    match r.args[start]? with
    | some t => t.originalIndex
    | none => 0
  let b : Nat :=
    match stop with
    | none => r.original.length
    | some e =>
      match r.args[e]? with
      | some t => t.originalIndex
      | none => r.original.length
  jsSubstring r.original a b

/-- Number of arguments (`SplitArgumentArray.length`). -/
def SplitArgumentArray.length (r : SplitArgumentArray) : Nat :=
  r.args.length

/-- The mutable fields of `class ArgumentSplitter`.  The JS object
`this.backticks = { past, present }` is flattened into the two fields
`backticksPast` and `backticksPresent`. -/
structure ArgumentSplitter where
  escaped : Bool
  startOfCurrentGroup : Nat
  group : GroupType
  next : List Char
  backticksPast : Nat
  backticksPresent : Nat
  args : List SplitArgument
deriving DecidableEq, Repr

/-- The field initializers of `ArgumentSplitter`: a freshly constructed
instance. -/
def ArgumentSplitter.init : ArgumentSplitter :=
  { escaped := false
    startOfCurrentGroup := 0
    group := GroupType.New
    next := []
    backticksPast := 0
    backticksPresent := 0
    args := [] }

/-- The maximum number of backticks that can be used to form one group. -/
def maxBackticksToFormAGroup : Nat := 3

namespace ArgumentSplitter

/-- `pushArg`: pushes the next argument as a complete argument.  Empty
strings are only pushed if they are encapsulated in some group (JS truthiness
of `this.next` is non-emptiness). -/
def pushArg (s : ArgumentSplitter) : ArgumentSplitter :=
  if s.next ≠ [] ∨ (s.group ≠ GroupType.None ∧ s.group ≠ GroupType.New) then
    { s with
      args := s.args ++ [⟨s.next, s.group, s.startOfCurrentGroup⟩]
      next := []
      group := GroupType.New }
  else
    { s with group := GroupType.New }

/-- `newGroup`: sets the group type and the index where the new group
starts. -/
def newGroup (t : GroupType) (i : Nat) (s : ArgumentSplitter) :
    ArgumentSplitter :=
  { s with group := t, startOfCurrentGroup := i }

/-- `appendChar`: appends a character (possibly a multi-character backtick
run, possibly the empty end marker) to the next argument, opening a `None`
group first if none is open. -/
def appendChar (c : List Char) (i : Nat) (s : ArgumentSplitter) :
    ArgumentSplitter :=
  let s1 := if s.group = GroupType.New ∧ c ≠ [] then newGroup GroupType.None i s else s
  { s1 with next := s1.next ++ c, escaped := false }

/-- `consumeNormalChar`: consumes a character without any backtick logic.
The cases mirror the source `switch` on the character. -/
def consumeNormalChar (c : List Char) (i : Nat) (s : ArgumentSplitter) :
    ArgumentSplitter :=
  if c = ['\\'] then
    -- Backslashes are used for escaping.
    let s1 := { s with escaped := !s.escaped }
    if s1.escaped then s1 else appendChar c i s1
  else if c = ['"'] then
    -- Quotes can be used to group an argument together.
    if s.group = GroupType.DoubleQuote then
      if !s.escaped then pushArg s else appendChar c i s
    else if s.group = GroupType.New ∨ s.group = GroupType.None then
      if !s.escaped then newGroup GroupType.DoubleQuote i (pushArg s)
      else appendChar c i s
    else appendChar c i s
  else if c = [' '] ∨ c = ['\x0C'] ∨ c = ['\n'] ∨ c = ['\r'] ∨ c = ['\t'] ∨
      c = ['\x0B'] then
    -- Whitespace separates arguments when not in a group.
    if s.group = GroupType.None ∨ s.group = GroupType.New then pushArg s
    else appendChar c i s
  else if c = [] then
    -- Empty character signals the end.
    if s.group = GroupType.None then pushArg s else s
  else
    -- Everything else, including backticks that made it here.
    appendChar c i s

/-- The `for` loop of `handleExtraBackticks`: emits `n` complete, self-closed
code groups, advancing the lookback index by `maxBackticksToFormAGroup * 2`
per group. -/
def emitCompleteGroups : Nat → Nat → ArgumentSplitter → ArgumentSplitter
  | 0, _, s => s
  | n + 1, lb, s =>
    emitCompleteGroups n (lb + maxBackticksToFormAGroup * 2)
      (pushArg (newGroup GroupType.CodeBacktick lb s))

/-- `handleExtraBackticks`: resolves a finished run of
`this.backticks.present` backticks into complete groups, a possible newly
opened group, and leftover literal backticks. -/
def handleExtraBackticks (i : Nat) (s : ArgumentSplitter) : ArgumentSplitter :=
  let maxGroups := s.backticksPresent / maxBackticksToFormAGroup
  let leftOver := s.backticksPresent % maxBackticksToFormAGroup
  let completeGroups := maxGroups / 2
  let endsWithNewMaxGroup := maxGroups % 2 = 1
  let lb0 := i - s.backticksPresent
  let s1 := emitCompleteGroups completeGroups lb0 s
  let lbF := lb0 + maxBackticksToFormAGroup * 2 * completeGroups
  let s2 :=
    { s1 with
      backticksPast := if endsWithNewMaxGroup then maxBackticksToFormAGroup else leftOver
      backticksPresent := 0 }
  if endsWithNewMaxGroup then
    -- The leftover backticks are actual characters in the newly formed group.
    appendChar (List.replicate leftOver '`') i (newGroup GroupType.CodeBacktick lbF s2)
  else if leftOver ≠ 0 then
    -- The leftover backticks start the new group.
    newGroup GroupType.CodeBacktick lbF s2
  else s2

/-- `consumeChar`: consumes one character, handling all backtick logic.  The
two `throw new ArgumentSplitterError(...)` sites become `Except.error
(.internal ...)`. -/
def consumeChar (c : List Char) (i : Nat) (s : ArgumentSplitter) :
    Except ArgumentSplitterError ArgumentSplitter :=
  if s.group = GroupType.DoubleQuote then
    -- A quote group treats backticks as normal characters.
    .ok (consumeNormalChar c i s)
  else if c = ['`'] ∧ s.escaped = false then
    -- An unescaped backtick that starts or ends a group: record it.
    .ok { s with backticksPresent := s.backticksPresent + 1 }
  else if s.backticksPresent ≠ 0 then
    -- The current chain of backticks has finished.
    if s.group = GroupType.None ∨ s.group = GroupType.New then
      -- Start of a new group: push whatever existed before it.
      let s1 := pushArg s
      let s2 := { s1 with group := GroupType.CodeBacktick }
      let s3 := handleExtraBackticks i s2
      if s3.group = GroupType.CodeBacktick then .ok (appendChar c i s3)
      else .ok (consumeNormalChar c i s3)
    else if s.group = GroupType.CodeBacktick then
      if s.backticksPast = 0 then
        .error (.internal "Parsing a code block, but unknown number of backticks to match.")
      else if s.backticksPresent < s.backticksPast then
        -- Fewer backticks than needed to match: append them as normal chars.
        .ok (appendChar (List.replicate s.backticksPresent '`') i s)
      else
        -- Enough backticks to match the group: count those off.
        let s1 := { s with backticksPresent := s.backticksPresent - s.backticksPast }
        let s2 := pushArg s1
        let s3 := handleExtraBackticks i s2
        if s3.group = GroupType.CodeBacktick then .ok (appendChar c i s3)
        else .ok (consumeNormalChar c i s3)
    else
      .error (.internal "Impossible condition: backticks are recorded but group is in unknown state.")
  else
    -- No backticks are being recorded: handle the char normally.
    .ok (consumeNormalChar c i s)

/-- The scanning loop of `split`, starting at index `i`: consumes every
remaining character and then the empty end-of-input marker. -/
def consumeAll : List Char → Nat → ArgumentSplitter →
    Except ArgumentSplitterError ArgumentSplitter
  | [], i, s => consumeChar [] i s
  | ch :: rest, i, s =>
    match consumeChar [ch] i s with
    | .ok s1 => consumeAll rest (i + 1) s1
    | .error e => .error e

/-- Method `split` called on an existing `ArgumentSplitter` instance: scans
the whole string plus the end marker, fails if a group is unfinished, and
otherwise returns the argument array together with the instance state left
behind by the call (in JS the fields simply persist on `this`). -/
def split (s : ArgumentSplitter) (content : List Char) :
    Except ArgumentSplitterError (SplitArgumentArray × ArgumentSplitter) :=
  match consumeAll content 0 s with
  | .error e => .error e
  | .ok f =>
    if f.group ≠ GroupType.New then .error (.unterminated f.group)
    else .ok (⟨content, f.args⟩, f)

end ArgumentSplitter

/-- `split` on a freshly constructed `ArgumentSplitter`, as the spec's
contract `split(input) -> TokenSequence` describes. -/
def split (content : List Char) : Except ArgumentSplitterError SplitArgumentArray :=
  match ArgumentSplitter.init.split content with
  | .error e => .error e
  | .ok (r, _) => .ok r

/-! ## Scan-state invariants -/

/-- A character counted as whitespace by the splitter, or the backslash used
for escaping: exactly the characters that can be consumed before the first
token's group is opened. -/
def isWsOrBackslash (ch : Char) : Prop :=
  ch = ' ' ∨ ch = '\x0C' ∨ ch = '\n' ∨ ch = '\r' ∨ ch = '\t' ∨ ch = '\x0B' ∨
    ch = '\\'

instance (ch : Char) : Decidable (isWsOrBackslash ch) := by
  unfold isWsOrBackslash; infer_instance

/-- Invariant maintained by the scanner when it is about to consume the
character at index `i`. -/
structure ScanInv (i : Nat) (s : ArgumentSplitter) : Prop where
  hstart : s.startOfCurrentGroup + s.backticksPresent ≤ i
  hidx : ∀ a ∈ s.args, a.originalIndex ≤ s.startOfCurrentGroup
  hpair : s.args.Pairwise fun a b => a.originalIndex ≤ b.originalIndex
  htype : ∀ a ∈ s.args, a.type ≠ GroupType.New
  hnew : s.group = GroupType.New → s.next = []
  hnone : s.group = GroupType.None → s.next ≠ []
  hcode : s.group = GroupType.CodeBacktick → s.backticksPast ≠ 0

theorem ScanInv.mono {i j : Nat} {s : ArgumentSplitter} (h : ScanInv i s)
    (hij : i ≤ j) : ScanInv j s :=
  { h with hstart := h.hstart.trans hij }

/-- Index below which every original character must be whitespace or a
backslash: the start offset of the first argument once one exists, and
otherwise the start of whatever run or group is currently being scanned. -/
def lowBound (i : Nat) (s : ArgumentSplitter) : Nat :=
  match s.args with
  | a :: _ => a.originalIndex
  | [] =>
    if s.group = GroupType.New then i - s.backticksPresent
    else s.startOfCurrentGroup

/-- Every character of the input strictly before `lowBound` is whitespace or
a backslash. -/
def PrefixOk (content : List Char) (i : Nat) (s : ArgumentSplitter) : Prop :=
  ∀ k, k < lowBound i s → k < content.length → isWsOrBackslash (content.getD k ' ')

theorem lowBound_le {i : Nat} {s : ArgumentSplitter} (h : ScanInv i s) :
    lowBound i s ≤ i := by
  have h2 := h.hstart
  unfold lowBound
  split
  · rename_i a t heq
    have h1 := h.hidx a (by rw [heq]; exact List.mem_cons_self a t)
    omega
  · split <;> omega

theorem PrefixOk.of_le {content : List Char} {i j : Nat}
    {s s' : ArgumentSplitter} (hp : PrefixOk content i s)
    (hle : lowBound j s' ≤ lowBound i s) : PrefixOk content j s' :=
  fun k hk hl => hp k (lt_of_lt_of_le hk hle) hl

theorem PrefixOk.push_one {content : List Char} {i : Nat}
    {s s' : ArgumentSplitter} (hp : PrefixOk content i s)
    (hold : i ≤ lowBound i s) (hnew2 : lowBound (i + 1) s' ≤ i + 1)
    (hchar : i < content.length → isWsOrBackslash (content.getD i ' ')) :
    PrefixOk content (i + 1) s' := by
  intro k hk hl
  rcases lt_or_ge k i with hki | hki
  · exact hp k (hki.trans_le hold) hl
  · have : k = i := by omega
    subst this
    exact hchar hl

/-- Reading the single character that `split` passes for index `i`. -/
theorem charAt_spec {content : List Char} {i : Nat} {ch : Char}
    (h : (content.drop i).take 1 = [ch]) :
    i < content.length ∧ content.getD i ' ' = ch := by
  cases hd : content.drop i with
  | nil => rw [hd] at h; simp at h
  | cons a t =>
    rw [hd] at h
    simp at h
    have hlen : i < content.length := by
      by_contra hc
      rw [List.drop_eq_nil_of_le (by omega)] at hd
      exact List.noConfusion hd
    have : content[i]? = some a := by
      rw [← List.head?_drop, hd]; rfl
    refine ⟨hlen, ?_⟩
    rw [List.getD_eq_getElem?_getD, this, h]
    rfl

theorem charAt_nil {content : List Char} {i : Nat}
    (h : (content.drop i).take 1 = ([] : List Char)) : content.length ≤ i := by
  by_contra hc
  cases hd : content.drop i with
  | nil =>
    have := List.drop_eq_nil_iff.mp hd
    omega
  | cons a t => rw [hd] at h; simp at h

/-! ## Properties of the elementary scanner operations -/

namespace ArgumentSplitter

theorem pushArg_next (s : ArgumentSplitter) : (pushArg s).next = [] := by
  unfold pushArg
  split
  · rfl
  · rename_i hcond
    push_neg at hcond
    exact hcond.1

theorem pushArg_group (s : ArgumentSplitter) :
    (pushArg s).group = GroupType.New := by
  unfold pushArg; split <;> rfl

theorem pushArg_startOfCurrentGroup (s : ArgumentSplitter) :
    (pushArg s).startOfCurrentGroup = s.startOfCurrentGroup := by
  unfold pushArg; split <;> rfl

theorem pushArg_backticksPast (s : ArgumentSplitter) :
    (pushArg s).backticksPast = s.backticksPast := by
  unfold pushArg; split <;> rfl

theorem pushArg_backticksPresent (s : ArgumentSplitter) :
    (pushArg s).backticksPresent = s.backticksPresent := by
  unfold pushArg; split <;> rfl

theorem pushArg_args_append (s : ArgumentSplitter) :
    ∃ l, (pushArg s).args = s.args ++ l := by
  unfold pushArg
  split
  · exact ⟨_, rfl⟩
  · exact ⟨[], by simp⟩

theorem pushArg_scanInv {i : Nat} {s : ArgumentSplitter} (h : ScanInv i s) :
    ScanInv i (pushArg s) := by
  unfold pushArg
  split
  · rename_i hcond
    have hgroup : s.group ≠ GroupType.New := by
      rcases hcond with hne | ⟨_, h2⟩
      · intro hg
        exact hne (h.hnew hg)
      · exact h2
    refine ⟨h.hstart, ?_, ?_, ?_, fun _ => rfl, by simp, by simp⟩
    · intro a ha
      rcases List.mem_append.mp ha with ha | ha
      · exact h.hidx a ha
      · rcases List.mem_singleton.mp ha with rfl
        exact le_refl _
    · refine List.pairwise_append.mpr ⟨h.hpair, List.pairwise_singleton _ _, ?_⟩
      intro a ha b hb
      rcases List.mem_singleton.mp hb with rfl
      exact h.hidx a ha
    · intro a ha
      rcases List.mem_append.mp ha with ha | ha
      · exact h.htype a ha
      · rcases List.mem_singleton.mp ha with rfl
        exact hgroup
  · rename_i hcond
    push_neg at hcond
    exact ⟨h.hstart, h.hidx, h.hpair, h.htype, fun _ => hcond.1, by simp, by simp⟩

theorem pushArg_lowBound {i : Nat} {s : ArgumentSplitter} (h : ScanInv i s) :
    lowBound i (pushArg s) = lowBound i s := by
  unfold pushArg
  split
  · rename_i hcond
    have hgroup : s.group ≠ GroupType.New := by
      rcases hcond with hne | ⟨_, h2⟩
      · intro hg
        exact hne (h.hnew hg)
      · exact h2
    unfold lowBound
    cases hargs : s.args with
    | nil => simp [hargs, hgroup]
    | cons a t => simp [hargs]
  · rename_i hcond
    push_neg at hcond
    have hgroup : s.group = GroupType.New := by
      by_cases hn : s.group = GroupType.None
      · exact absurd (h.hnone hn) (by simp [hcond.1])
      · exact hcond.2 hn
    unfold lowBound
    cases hargs : s.args with
    | nil => simp [hargs, hgroup]
    | cons a t => simp [hargs]

theorem appendChar_backticksPast (c : List Char) (i : Nat)
    (s : ArgumentSplitter) : (appendChar c i s).backticksPast = s.backticksPast := by
  unfold appendChar newGroup; split <;> rfl

theorem appendChar_backticksPresent (c : List Char) (i : Nat)
    (s : ArgumentSplitter) :
    (appendChar c i s).backticksPresent = s.backticksPresent := by
  unfold appendChar newGroup; split <;> rfl

theorem appendChar_args (c : List Char) (i : Nat) (s : ArgumentSplitter) :
    (appendChar c i s).args = s.args := by
  unfold appendChar newGroup; split <;> rfl

theorem appendChar_group (c : List Char) (i : Nat) (s : ArgumentSplitter) :
    (appendChar c i s).group =
      if s.group = GroupType.New ∧ c ≠ [] then GroupType.None else s.group := by
  unfold appendChar newGroup
  split <;> simp_all

theorem appendChar_scanInv {c : List Char} {i : Nat} {s : ArgumentSplitter}
    (h : ScanInv i s) (hg : s.group = GroupType.New → s.backticksPresent = 0) :
    ScanInv i (appendChar c i s) ∧
      (appendChar c i s).startOfCurrentGroup ≤ max s.startOfCurrentGroup i ∧
      lowBound i (appendChar c i s) = lowBound i s := by
  unfold appendChar newGroup
  split
  · rename_i hcond
    have hpres : s.backticksPresent = 0 := hg hcond.1
    have hstart : s.startOfCurrentGroup ≤ i := by have := h.hstart; omega
    refine ⟨⟨by simpa using by omega, ?_, h.hpair, h.htype, by simp, ?_, by simp⟩, by simp, ?_⟩
    · intro a ha
      exact (h.hidx a ha).trans hstart
    · intro _
      simp [hcond.2]
    · unfold lowBound
      cases hargs : s.args with
      | nil => simp [hargs, hcond.1, hpres]
      | cons a t => simp [hargs]
  · rename_i hcond
    have hcase : ¬(s.group = GroupType.New) ∨ c = [] := by
      by_contra hc
      push_neg at hc
      exact hcond ⟨hc.1, hc.2⟩
    refine ⟨⟨h.hstart, h.hidx, h.hpair, h.htype, ?_, ?_, h.hcode⟩, by simp, ?_⟩
    · intro hgg
      rcases hcase with hne | rfl
      · exact absurd hgg hne
      · simpa using h.hnew hgg
    · intro hgg
      have := h.hnone hgg
      simp [this]
    · unfold lowBound
      cases hargs : s.args with
      | nil => simp [hargs]
      | cons a t => simp [hargs]

end ArgumentSplitter

namespace ArgumentSplitter

theorem codeTokenRange_shift (lb n : Nat) :
    (⟨[], GroupType.CodeBacktick, lb⟩ : SplitArgument) ::
        (List.range n).map
          (fun j => ⟨[], GroupType.CodeBacktick, lb + 6 + 6 * j⟩) =
      (List.range (n + 1)).map
        (fun j => (⟨[], GroupType.CodeBacktick, lb + 6 * j⟩ : SplitArgument)) := by
  rw [List.range_succ_eq_map, List.map_cons, List.map_map]
  refine congrArg₂ List.cons (by simp) ?_
  apply List.map_congr_left
  intro j hj
  simp only [Function.comp_apply, SplitArgument.mk.injEq, Nat.succ_eq_add_one]
  refine ⟨trivial, trivial, by omega⟩

theorem emitCompleteGroups_spec :
    ∀ (n lb : Nat) (s : ArgumentSplitter), s.next = [] →
      (emitCompleteGroups n lb s).args =
          s.args ++ (List.range n).map
            (fun j => ⟨[], GroupType.CodeBacktick, lb + 6 * j⟩) ∧
        (emitCompleteGroups n lb s).next = [] ∧
        (emitCompleteGroups n lb s).backticksPast = s.backticksPast ∧
        (emitCompleteGroups n lb s).backticksPresent = s.backticksPresent ∧
        (emitCompleteGroups n lb s).escaped = s.escaped ∧
        (emitCompleteGroups n lb s).group =
          (if n = 0 then s.group else GroupType.New) ∧
        (emitCompleteGroups n lb s).startOfCurrentGroup =
          (if n = 0 then s.startOfCurrentGroup else lb + 6 * (n - 1)) := by
  intro n
  induction n with
  | zero =>
    intro lb s h
    simp [emitCompleteGroups, h]
  | succ n ih =>
    intro lb s h
    have hpush : pushArg (newGroup GroupType.CodeBacktick lb s) =
        { s with
          args := s.args ++ [⟨[], GroupType.CodeBacktick, lb⟩]
          next := []
          group := GroupType.New
          startOfCurrentGroup := lb } := by
      unfold pushArg newGroup
      rw [if_pos (by simp)]
      simp [h]
    have hstep : emitCompleteGroups (n + 1) lb s =
        emitCompleteGroups n (lb + 6) (pushArg (newGroup GroupType.CodeBacktick lb s)) :=
      rfl
    rw [hstep, hpush]
    obtain ⟨ha, hn, hp1, hp2, he, hg, hs⟩ := ih (lb + 6)
      { s with
        args := s.args ++ [⟨[], GroupType.CodeBacktick, lb⟩]
        next := []
        group := GroupType.New
        startOfCurrentGroup := lb } rfl
    refine ⟨?_, hn, hp1, hp2, he, ?_, ?_⟩
    · rw [ha]
      simp only [List.append_assoc, List.singleton_append]
      rw [codeTokenRange_shift]
    · rw [hg]
      split <;> simp
    · rw [hs]
      rcases Nat.eq_zero_or_pos n with rfl | hnpos
      · simp
      · rw [if_neg (by omega), if_neg (by omega)]
        omega

theorem handleExtraBackticks_zero {i : Nat} {s : ArgumentSplitter}
    (h : s.backticksPresent = 0) :
    handleExtraBackticks i s = { s with backticksPast := 0 } := by
  unfold handleExtraBackticks
  simp [h, emitCompleteGroups, maxBackticksToFormAGroup]

end ArgumentSplitter

namespace ArgumentSplitter

theorem handleExtraBackticks_eq (i : Nat) (s : ArgumentSplitter) :
    handleExtraBackticks i s =
      (if s.backticksPresent / 3 % 2 = 1 then
        appendChar (List.replicate (s.backticksPresent % 3) '`') i
          (newGroup GroupType.CodeBacktick
            (i - s.backticksPresent + 6 * (s.backticksPresent / 3 / 2))
            { emitCompleteGroups (s.backticksPresent / 3 / 2)
                (i - s.backticksPresent) s with
              backticksPast :=
                if s.backticksPresent / 3 % 2 = 1 then 3
                else s.backticksPresent % 3
              backticksPresent := 0 })
      else if s.backticksPresent % 3 ≠ 0 then
        newGroup GroupType.CodeBacktick
          (i - s.backticksPresent + 6 * (s.backticksPresent / 3 / 2))
          { emitCompleteGroups (s.backticksPresent / 3 / 2)
              (i - s.backticksPresent) s with
            backticksPast :=
              if s.backticksPresent / 3 % 2 = 1 then 3
              else s.backticksPresent % 3
            backticksPresent := 0 }
      else
        { emitCompleteGroups (s.backticksPresent / 3 / 2)
            (i - s.backticksPresent) s with
          backticksPast :=
            if s.backticksPresent / 3 % 2 = 1 then 3
            else s.backticksPresent % 3
          backticksPresent := 0 }) :=
  rfl

theorem handleExtraBackticks_spec {i : Nat} {s : ArgumentSplitter}
    (hnext : s.next = []) (hpos : 0 < s.backticksPresent) :
    (handleExtraBackticks i s).args =
        s.args ++ (List.range (s.backticksPresent / 3 / 2)).map
          (fun j => ⟨[], GroupType.CodeBacktick,
            i - s.backticksPresent + 6 * j⟩) ∧
      (handleExtraBackticks i s).backticksPresent = 0 ∧
      (s.backticksPresent / 3 % 2 = 1 →
        (handleExtraBackticks i s).group = GroupType.CodeBacktick ∧
        (handleExtraBackticks i s).backticksPast = 3 ∧
        (handleExtraBackticks i s).next =
          List.replicate (s.backticksPresent % 3) '`' ∧
        (handleExtraBackticks i s).startOfCurrentGroup =
          i - s.backticksPresent + 6 * (s.backticksPresent / 3 / 2)) ∧
      (s.backticksPresent / 3 % 2 ≠ 1 → s.backticksPresent % 3 ≠ 0 →
        (handleExtraBackticks i s).group = GroupType.CodeBacktick ∧
        (handleExtraBackticks i s).backticksPast = s.backticksPresent % 3 ∧
        (handleExtraBackticks i s).next = [] ∧
        (handleExtraBackticks i s).startOfCurrentGroup =
          i - s.backticksPresent + 6 * (s.backticksPresent / 3 / 2)) ∧
      (s.backticksPresent / 3 % 2 ≠ 1 → s.backticksPresent % 3 = 0 →
        (handleExtraBackticks i s).group = GroupType.New ∧
        (handleExtraBackticks i s).next = [] ∧
        1 ≤ s.backticksPresent / 3 / 2 ∧
        (handleExtraBackticks i s).startOfCurrentGroup =
          i - s.backticksPresent + 6 * (s.backticksPresent / 3 / 2 - 1)) := by
  obtain ⟨ha, hn, hp1, hp2, he, hg, hs⟩ :=
    emitCompleteGroups_spec (s.backticksPresent / 3 / 2)
      (i - s.backticksPresent) s hnext
  rw [handleExtraBackticks_eq]
  by_cases hodd : s.backticksPresent / 3 % 2 = 1
  · rw [if_pos hodd]
    refine ⟨?_, ?_, fun _ => ⟨?_, ?_, ?_, ?_⟩, fun hc => absurd hodd hc,
      fun hc => absurd hodd hc⟩
    · rw [appendChar_args]
      exact ha
    · rw [appendChar_backticksPresent]
      rfl
    · rw [appendChar_group]
      simp [newGroup]
    · rw [appendChar_backticksPast]
      simp [newGroup, hodd]
    · simp only [appendChar, newGroup]
      rw [if_neg (by simp)]
      simp [hn]
    · simp only [appendChar, newGroup]
      rw [if_neg (by simp)]
  · rw [if_neg hodd]
    by_cases hleft : s.backticksPresent % 3 = 0
    · rw [if_neg (by simp [hleft])]
      have hcg : s.backticksPresent / 3 / 2 ≠ 0 := by omega
      refine ⟨ha, rfl, fun hc => absurd hc hodd, fun _ hc => absurd hleft hc,
        fun _ _ => ⟨?_, hn, by omega, ?_⟩⟩
      · show (emitCompleteGroups _ _ s).group = GroupType.New
        rw [hg, if_neg hcg]
      · show (emitCompleteGroups _ _ s).startOfCurrentGroup = _
        rw [hs, if_neg hcg]
    · rw [if_pos hleft]
      refine ⟨?_, rfl, fun hc => absurd hc hodd,
        fun _ _ => ⟨rfl, by simp [newGroup, hodd], ?_, rfl⟩,
        fun _ hc => absurd hc hleft⟩
      · simp only [newGroup]
        exact ha
      · simp only [newGroup]
        exact hn

end ArgumentSplitter

namespace ArgumentSplitter

theorem lowBound_succ_of {s' : ArgumentSplitter} (i : Nat)
    (h : s'.args ≠ [] ∨ s'.group ≠ GroupType.New) :
    lowBound (i + 1) s' = lowBound i s' := by
  unfold lowBound
  rcases hargs : s'.args with _ | ⟨a, t⟩
  · rcases h with h | h
    · exact absurd hargs h
    · simp [h]
  · simp

theorem lowBound_congr {i : Nat} {s s' : ArgumentSplitter}
    (ha : s'.args = s.args) (hg : s'.group = s.group)
    (hst : s'.startOfCurrentGroup = s.startOfCurrentGroup)
    (hpr : s'.backticksPresent = s.backticksPresent) :
    lowBound i s' = lowBound i s := by
  unfold lowBound
  rw [ha, hg, hst, hpr]

theorem scanInv_escaped {i : Nat} {s : ArgumentSplitter} {e : Bool}
    (h : ScanInv i s) : ScanInv i { s with escaped := e } :=
  ⟨h.hstart, h.hidx, h.hpair, h.htype, h.hnew, h.hnone, h.hcode⟩

theorem char_here {content : List Char} {i : Nat} {c : List Char} {ch : Char}
    (hc : c = (content.drop i).take 1) (hch : c = [ch]) :
    content.getD i ' ' = ch ∧ i < content.length := by
  obtain ⟨h1, h2⟩ := charAt_spec (by rw [← hc, hch])
  exact ⟨h2, h1⟩

/-- Preservation of the whitespace-or-backslash prefix across a step that
leaves the argument list, group, group start, and backtick counter
unchanged. -/
theorem prefixOk_id_step {content : List Char} {i : Nat}
    {s s' : ArgumentSplitter} (hp : PrefixOk content i s)
    (ha : s'.args = s.args) (hg : s'.group = s.group)
    (hst : s'.startOfCurrentGroup = s.startOfCurrentGroup)
    (hpr : s'.backticksPresent = s.backticksPresent)
    (hpres0 : s.group = GroupType.New → s.backticksPresent = 0)
    (hchar : i < content.length → isWsOrBackslash (content.getD i ' ')) :
    PrefixOk content (i + 1) s' := by
  by_cases hcase : s.args = [] ∧ s.group = GroupType.New
  · obtain ⟨hargs, hgr⟩ := hcase
    have hpz : s.backticksPresent = 0 := hpres0 hgr
    refine hp.push_one ?_ ?_ hchar
    · unfold lowBound
      rw [hargs]
      simp [hgr, hpz]
    · unfold lowBound
      rw [ha, hargs, hg, hst, hpr]
      simp [hgr, hpz]
  · push_neg at hcase
    have hne : s'.args ≠ [] ∨ s'.group ≠ GroupType.New := by
      by_cases hargs : s.args = []
      · exact Or.inr (by rw [hg]; exact hcase hargs)
      · exact Or.inl (by rw [ha]; exact hargs)
    refine hp.of_le ?_
    rw [lowBound_succ_of i hne, lowBound_congr ha hg hst hpr]

/-- Preservation of all four tracked properties across an `appendChar` step
performed on the character at index `i` (hence a non-empty character). -/
theorem case_appendChar {c : List Char} {i : Nat} {s : ArgumentSplitter}
    {content : List Char} (h : ScanInv i s)
    (hg : s.group = GroupType.New → s.backticksPresent = 0)
    (hcne : c ≠ [] ∨ s.group ≠ GroupType.New) (hp : PrefixOk content i s) :
    ScanInv (i + 1) (appendChar c i s) ∧
      (appendChar c i s).startOfCurrentGroup ≤ max s.startOfCurrentGroup i ∧
      (∃ l, (appendChar c i s).args = s.args ++ l) ∧
      PrefixOk content (i + 1) (appendChar c i s) := by
  obtain ⟨hinv, hstart, hlow⟩ := appendChar_scanInv h hg
  have hgroup : (appendChar c i s).group ≠ GroupType.New := by
    rw [appendChar_group]
    split
    · simp
    · rename_i hcond
      intro hgg
      rcases hcne with hcne | hcne
      · exact hcond ⟨hgg, hcne⟩
      · exact hcne hgg
  refine ⟨hinv.mono (Nat.le_succ i), hstart, ⟨[], by rw [appendChar_args]; simp⟩, ?_⟩
  refine hp.of_le ?_
  rw [lowBound_succ_of i (Or.inr hgroup), hlow]

end ArgumentSplitter

namespace ArgumentSplitter

theorem pushArg_args_cons (s : ArgumentSplitter)
    (hcond : s.next ≠ [] ∨
      (s.group ≠ GroupType.None ∧ s.group ≠ GroupType.New)) :
    (pushArg s).args =
      s.args ++ [⟨s.next, s.group, s.startOfCurrentGroup⟩] := by
  unfold pushArg
  rw [if_pos hcond]

theorem lowBound_cons {i : Nat} {s : ArgumentSplitter} {a : SplitArgument}
    {t : List SplitArgument} (h : s.args = a :: t) :
    lowBound i s = a.originalIndex := by
  unfold lowBound
  rw [h]

theorem consumeNormalChar_backslash (i : Nat) (s : ArgumentSplitter) :
    consumeNormalChar ['\\'] i s =
      if s.escaped = true then appendChar ['\\'] i { s with escaped := false }
      else { s with escaped := true } := by
  unfold consumeNormalChar
  rw [if_pos rfl]
  cases hesc0 : s.escaped <;> simp [hesc0]

theorem wsChar_here {content : List Char} {i : Nat} {c : List Char}
    (hc : c = (content.drop i).take 1)
    (hws : c = [' '] ∨ c = ['\x0C'] ∨ c = ['\n'] ∨ c = ['\r'] ∨ c = ['\t'] ∨
      c = ['\x0B']) :
    i < content.length → isWsOrBackslash (content.getD i ' ') := by
  intro _
  rcases hws with hh | hh | hh | hh | hh | hh <;>
    · obtain ⟨hch, _⟩ := char_here hc hh
      rw [hch]
      simp [isWsOrBackslash]

/-- The four tracked properties for a `pushArg` step whose push condition is
known to hold (so the argument list surely becomes non-empty). -/
theorem case_pushArg_pushed {i : Nat} {s : ArgumentSplitter}
    {content : List Char} (h : ScanInv i s) (hp : PrefixOk content i s)
    (hcond : s.next ≠ [] ∨
      (s.group ≠ GroupType.None ∧ s.group ≠ GroupType.New)) :
    ScanInv (i + 1) (pushArg s) ∧
      (pushArg s).startOfCurrentGroup ≤ max s.startOfCurrentGroup i ∧
      (∃ l, (pushArg s).args = s.args ++ l) ∧
      PrefixOk content (i + 1) (pushArg s) := by
  have hargs : (pushArg s).args ≠ [] := by
    rw [pushArg_args_cons s hcond]
    simp
  refine ⟨(pushArg_scanInv h).mono (Nat.le_succ i), ?_, pushArg_args_append s, ?_⟩
  · rw [pushArg_startOfCurrentGroup]
    exact le_max_left _ _
  · refine hp.of_le ?_
    rw [lowBound_succ_of i (Or.inl hargs), pushArg_lowBound h]

theorem consumeNormalChar_sound {c : List Char} {i : Nat}
    {s : ArgumentSplitter} {content : List Char} (h : ScanInv i s)
    (hpres : s.backticksPresent = 0 ∨ s.group = GroupType.DoubleQuote)
    (hc : c = (content.drop i).take 1) (hp : PrefixOk content i s) :
    ScanInv (i + 1) (consumeNormalChar c i s) ∧
      (consumeNormalChar c i s).startOfCurrentGroup ≤
        max s.startOfCurrentGroup i ∧
      (∃ l, (consumeNormalChar c i s).args = s.args ++ l) ∧
      PrefixOk content (i + 1) (consumeNormalChar c i s) := by
  have hpres0 : s.group = GroupType.New → s.backticksPresent = 0 := by
    intro hg
    rcases hpres with hz | hdq0
    · exact hz
    · rw [hg] at hdq0
      exact absurd hdq0 (by simp)
  by_cases hbs : c = ['\\']
  · -- Backslash: toggle the escape flag, appending only on toggling off.
    subst hbs
    rw [consumeNormalChar_backslash]
    cases hesc0 : s.escaped
    · rw [if_neg (by simp [hesc0])]
      refine ⟨(scanInv_escaped h).mono (Nat.le_succ i), le_max_left _ _,
        ⟨[], by simp⟩, ?_⟩
      refine prefixOk_id_step hp rfl rfl rfl rfl hpres0 ?_
      intro _
      obtain ⟨hch, _⟩ := char_here hc rfl
      rw [hch]
      simp [isWsOrBackslash]
    · rw [if_pos (by simp [hesc0])]
      exact case_appendChar (scanInv_escaped h) hpres0 (Or.inl (by simp)) hp
  · unfold consumeNormalChar
    rw [if_neg hbs]
    by_cases hq : c = ['"']
    · rw [if_pos hq]
      by_cases hdq : s.group = GroupType.DoubleQuote
      · rw [if_pos hdq]
        by_cases hesc : s.escaped = false
        · rw [if_pos (by simp [hesc])]
          exact case_pushArg_pushed h hp (Or.inr (by rw [hdq]; simp))
        · rw [if_neg (by simpa using hesc)]
          exact case_appendChar h hpres0 (Or.inl (by simp [hq])) hp
      · rw [if_neg hdq]
        have hpz : s.backticksPresent = 0 := by
          rcases hpres with hz | hdq0
          · exact hz
          · exact absurd hdq0 hdq
        by_cases hnn : s.group = GroupType.New ∨ s.group = GroupType.None
        · rw [if_pos hnn]
          by_cases hesc : s.escaped = false
          · rw [if_pos (by simp [hesc])]
            -- Opening a quote group at index `i` after flushing any
            -- pending plain token.
            have hpinv := pushArg_scanInv h
            have hstart_le : s.startOfCurrentGroup ≤ i := by
              have := h.hstart
              omega
            refine ⟨⟨?_, ?_, ?_, ?_, ?_, ?_, ?_⟩, ?_, ?_, ?_⟩
            · show i + (pushArg s).backticksPresent ≤ i + 1
              rw [pushArg_backticksPresent, hpz]
              omega
            · intro a ha
              show a.originalIndex ≤ i
              have h1 := hpinv.hidx a ha
              rw [pushArg_startOfCurrentGroup] at h1
              omega
            · exact hpinv.hpair
            · exact hpinv.htype
            · intro hgg
              exact absurd hgg (by simp [newGroup])
            · intro hgg
              exact absurd hgg (by simp [newGroup])
            · intro hgg
              exact absurd hgg (by simp [newGroup])
            · show i ≤ max s.startOfCurrentGroup i
              exact le_max_right _ _
            · exact pushArg_args_append s
            · have hgroup' :
                  (newGroup GroupType.DoubleQuote i (pushArg s)).group ≠
                    GroupType.New := by simp [newGroup]
              refine hp.of_le ?_
              rw [lowBound_succ_of i (Or.inr hgroup')]
              rcases hpargs : (pushArg s).args with _ | ⟨a, t⟩
              · -- nothing was pushed: the scanner was still neutral
                have hsnil : s.args = [] := by
                  unfold pushArg at hpargs
                  split at hpargs
                  · exact absurd hpargs (by simp)
                  · exact hpargs
                have hgnew : s.group = GroupType.New := by
                  rcases hnn with hg | hg
                  · exact hg
                  · unfold pushArg at hpargs
                    split at hpargs
                    · exact absurd hpargs (by simp)
                    · rename_i hcond
                      push_neg at hcond
                      exact absurd (h.hnone hg) (by simp [hcond.1])
                have hl : lowBound i (newGroup GroupType.DoubleQuote i (pushArg s)) = i := by
                  unfold lowBound
                  rw [show (newGroup GroupType.DoubleQuote i (pushArg s)).args =
                    (pushArg s).args from rfl, hpargs]
                  simp [newGroup]
                have hr : lowBound i s = i := by
                  unfold lowBound
                  rw [hsnil]
                  simp [hgnew, hpz]
                omega
              · have hl : lowBound i
                    (newGroup GroupType.DoubleQuote i (pushArg s)) =
                      a.originalIndex :=
                  lowBound_cons (by simpa [newGroup] using hpargs)
                have hr : lowBound i (pushArg s) = a.originalIndex :=
                  lowBound_cons hpargs
                rw [hl, ← hr, pushArg_lowBound h]
          · rw [if_neg (by simpa using hesc)]
            exact case_appendChar h hpres0 (Or.inl (by simp [hq])) hp
        · rw [if_neg hnn]
          exact case_appendChar h hpres0 (Or.inl (by simp [hq])) hp
    · rw [if_neg hq]
      by_cases hws : c = [' '] ∨ c = ['\x0C'] ∨ c = ['\n'] ∨ c = ['\r'] ∨
          c = ['\t'] ∨ c = ['\x0B']
      · rw [if_pos hws]
        by_cases hgr : s.group = GroupType.None ∨ s.group = GroupType.New
        · rw [if_pos hgr]
          by_cases hgn2 : s.group = GroupType.None
          · exact case_pushArg_pushed h hp (Or.inl (h.hnone hgn2))
          · have hgnew : s.group = GroupType.New := by
              rcases hgr with hg | hg
              · exact absurd hg hgn2
              · exact hg
            have hskip : pushArg s = { s with group := GroupType.New } := by
              unfold pushArg
              rw [if_neg (by simp [h.hnew hgnew, hgnew])]
            rw [hskip]
            refine ⟨⟨h.hstart.trans (Nat.le_succ i), h.hidx, h.hpair, h.htype,
              fun _ => h.hnew hgnew, by simp, by simp⟩,
              le_max_left _ _, ⟨[], by simp⟩, ?_⟩
            exact prefixOk_id_step hp rfl hgnew.symm rfl rfl hpres0
              (wsChar_here hc hws)
        · rw [if_neg hgr]
          have hcne : c ≠ [] := by
            rcases hws with hh | hh | hh | hh | hh | hh <;> simp [hh]
          exact case_appendChar h hpres0 (Or.inl hcne) hp
      · rw [if_neg hws]
        by_cases hnil : c = []
        · rw [if_pos hnil]
          by_cases hgn : s.group = GroupType.None
          · rw [if_pos hgn]
            exact case_pushArg_pushed h hp (Or.inl (h.hnone hgn))
          · rw [if_neg hgn]
            refine ⟨h.mono (Nat.le_succ i), le_max_left _ _, ⟨[], by simp⟩, ?_⟩
            refine prefixOk_id_step hp rfl rfl rfl rfl hpres0 ?_
            intro hlen
            have := charAt_nil (by rw [← hc, hnil])
            omega
        · rw [if_neg hnil]
          exact case_appendChar h hpres0 (Or.inl hnil) hp

end ArgumentSplitter

namespace ArgumentSplitter

theorem lowBound_congr_ne_new {i j : Nat} {s s' : ArgumentSplitter}
    (ha : s'.args = s.args) (hg : s'.group = s.group)
    (hst : s'.startOfCurrentGroup = s.startOfCurrentGroup)
    (hne : s.group ≠ GroupType.New) : lowBound j s' = lowBound i s := by
  unfold lowBound
  rw [ha, hg, hst]
  cases s.args with
  | cons a t => rfl
  | nil => simp [hne]

/-- Invariant, counter reset, start bound, appended arguments, and the
resulting `lowBound` for a `handleExtraBackticks` step, at a state whose
pending token buffer has just been flushed. -/
theorem handleExtra_sound {i : Nat} {s2 : ArgumentSplitter}
    (hstart2 : s2.startOfCurrentGroup + s2.backticksPresent ≤ i)
    (hidx2 : ∀ a ∈ s2.args, a.originalIndex ≤ s2.startOfCurrentGroup)
    (hpair2 : s2.args.Pairwise fun a b => a.originalIndex ≤ b.originalIndex)
    (htype2 : ∀ a ∈ s2.args, a.type ≠ GroupType.New)
    (hnext2 : s2.next = [])
    (hpz : s2.group = GroupType.CodeBacktick → 0 < s2.backticksPresent)
    (hgr2 : s2.group = GroupType.CodeBacktick ∨ s2.group = GroupType.New) :
    ScanInv i (handleExtraBackticks i s2) ∧
      (handleExtraBackticks i s2).backticksPresent = 0 ∧
      (handleExtraBackticks i s2).startOfCurrentGroup ≤ i ∧
      (∃ l, (handleExtraBackticks i s2).args = s2.args ++ l) ∧
      (s2.args = [] →
        lowBound i (handleExtraBackticks i s2) = i - s2.backticksPresent) ∧
      (∀ hd tl, s2.args = hd :: tl →
        lowBound i (handleExtraBackticks i s2) = hd.originalIndex) := by
  rcases Nat.eq_zero_or_pos s2.backticksPresent with hz | hpos
  · -- an empty run: only the `past` counter is cleared
    have hgnew : s2.group = GroupType.New := by
      rcases hgr2 with hg | hg
      · exact absurd (hpz hg) (by omega)
      · exact hg
    rw [handleExtraBackticks_zero hz]
    refine ⟨⟨by simpa using by omega, hidx2, hpair2, htype2, fun _ => hnext2,
      by simp [hgnew], by simp [hgnew]⟩, hz, by simpa using by omega, ⟨[], by simp⟩, ?_, ?_⟩
    · intro hargs
      unfold lowBound
      rw [show ({ s2 with backticksPast := 0 } : ArgumentSplitter).args =
        s2.args from rfl, hargs]
      simp [hgnew, hz]
    · intro hd tl hargs
      unfold lowBound
      rw [show ({ s2 with backticksPast := 0 } : ArgumentSplitter).args =
        s2.args from rfl, hargs]
  · obtain ⟨hargs3, hpres3, hA, hB, hC⟩ := handleExtraBackticks_spec hnext2 hpos
    set p := s2.backticksPresent with hpdef
    set cg := p / 3 / 2 with hcgdef
    set lb0 := i - p with hlbdef
    have hple : p ≤ i := by omega
    have hcgle : 6 * cg ≤ p := by omega
    have hstart3 : (handleExtraBackticks i s2).startOfCurrentGroup ≤ i := by
      by_cases hodd : p / 3 % 2 = 1
      · rw [(hA hodd).2.2.2]
        omega
      · by_cases hleft : p % 3 = 0
        · rw [(hC hodd hleft).2.2.2]
          omega
        · rw [(hB hodd hleft).2.2.2]
          omega
    have hstart_ge : lb0 ≤ (handleExtraBackticks i s2).startOfCurrentGroup := by
      by_cases hodd : p / 3 % 2 = 1
      · rw [(hA hodd).2.2.2]
        omega
      · by_cases hleft : p % 3 = 0
        · rw [(hC hodd hleft).2.2.2]
          omega
        · rw [(hB hodd hleft).2.2.2]
          omega
    have hnewidx : ∀ a ∈ (List.range cg).map
        (fun j => (⟨[], GroupType.CodeBacktick, lb0 + 6 * j⟩ : SplitArgument)),
        lb0 ≤ a.originalIndex ∧
          a.originalIndex ≤ lb0 + 6 * (cg - 1) ∧
          a.type = GroupType.CodeBacktick := by
      intro a ha
      obtain ⟨j, hj, rfl⟩ := List.mem_map.mp ha
      have := List.mem_range.mp hj
      refine ⟨?_, ?_, rfl⟩
      · show lb0 ≤ lb0 + 6 * j
        omega
      · show lb0 + 6 * j ≤ lb0 + 6 * (cg - 1)
        omega
    have hidx3 : ∀ a ∈ (handleExtraBackticks i s2).args,
        a.originalIndex ≤ (handleExtraBackticks i s2).startOfCurrentGroup := by
      intro a ha
      rw [hargs3] at ha
      rcases List.mem_append.mp ha with ha | ha
      · have := hidx2 a ha
        omega
      · obtain ⟨_, h2, _⟩ := hnewidx a ha
        have hcgpos : 0 < cg := by
          rcases List.mem_map.mp ha with ⟨j, hj, _⟩
          have := List.mem_range.mp hj
          omega
        by_cases hodd : p / 3 % 2 = 1
        · rw [(hA hodd).2.2.2]
          omega
        · by_cases hleft : p % 3 = 0
          · rw [(hC hodd hleft).2.2.2]
            omega
          · rw [(hB hodd hleft).2.2.2]
            omega
    have hpair3 : (handleExtraBackticks i s2).args.Pairwise
        fun a b => a.originalIndex ≤ b.originalIndex := by
      rw [hargs3]
      refine List.pairwise_append.mpr ⟨hpair2, ?_, ?_⟩
      · refine List.pairwise_map.mpr ?_
        refine (List.pairwise_lt_range cg).imp ?_
        intro a b hab
        simp
        omega
      · intro a ha b hb
        obtain ⟨h1, _, _⟩ := hnewidx b hb
        have := hidx2 a ha
        omega
    have htype3 : ∀ a ∈ (handleExtraBackticks i s2).args,
        a.type ≠ GroupType.New := by
      intro a ha
      rw [hargs3] at ha
      rcases List.mem_append.mp ha with ha | ha
      · exact htype2 a ha
      · obtain ⟨_, _, h3⟩ := hnewidx a ha
        rw [h3]
        simp
    refine ⟨⟨by omega, hidx3, hpair3, htype3, ?_, ?_, ?_⟩, hpres3, hstart3,
      ⟨_, hargs3⟩, ?_, ?_⟩
    · -- finalized group `New` implies empty buffer
      intro hgg
      by_cases hodd : p / 3 % 2 = 1
      · rw [(hA hodd).1] at hgg
        exact absurd hgg (by simp)
      · by_cases hleft : p % 3 = 0
        · exact (hC hodd hleft).2.1
        · rw [(hB hodd hleft).1] at hgg
          exact absurd hgg (by simp)
    · -- the resulting group is never `None`
      intro hgg
      by_cases hodd : p / 3 % 2 = 1
      · rw [(hA hodd).1] at hgg
        exact absurd hgg (by simp)
      · by_cases hleft : p % 3 = 0
        · rw [(hC hodd hleft).1] at hgg
          exact absurd hgg (by simp)
        · rw [(hB hodd hleft).1] at hgg
          exact absurd hgg (by simp)
    · -- a `CodeBacktick` group always records its opening width
      intro hgg
      by_cases hodd : p / 3 % 2 = 1
      · rw [(hA hodd).2.1]
        omega
      · by_cases hleft : p % 3 = 0
        · rw [(hC hodd hleft).1] at hgg
          exact absurd hgg (by simp)
        · rw [(hB hodd hleft).2.1]
          omega
    · -- lowBound when no argument had been produced yet
      intro hargs
      rw [hargs] at hargs3
      rcases Nat.eq_zero_or_pos cg with hcg0 | hcgpos
      · have hargsnil : (handleExtraBackticks i s2).args = [] := by
          rw [hargs3, hcg0]
          simp
        have hgr3 : (handleExtraBackticks i s2).group = GroupType.CodeBacktick ∧
            (handleExtraBackticks i s2).startOfCurrentGroup = lb0 + 6 * cg := by
          by_cases hodd : p / 3 % 2 = 1
          · exact ⟨(hA hodd).1, (hA hodd).2.2.2⟩
          · by_cases hleft : p % 3 = 0
            · have := (hC hodd hleft).2.2.1
              omega
            · exact ⟨(hB hodd hleft).1, (hB hodd hleft).2.2.2⟩
        unfold lowBound
        rw [hargsnil]
        simp [hgr3.1, hgr3.2, hcg0]
      · obtain ⟨k, hk⟩ := Nat.exists_eq_succ_of_ne_zero (by omega : cg ≠ 0)
        have : (handleExtraBackticks i s2).args =
            (⟨[], GroupType.CodeBacktick, lb0 + 6 * 0⟩ : SplitArgument) ::
              (List.range k).map
                (fun j => ⟨[], GroupType.CodeBacktick, lb0 + 6 + 6 * j⟩) := by
          rw [hargs3, hk]
          rw [← codeTokenRange_shift]
          simp
        rw [lowBound_cons this]
        simp
    · intro hd tl hargs
      rw [hargs] at hargs3
      exact lowBound_cons (by rw [hargs3]; rfl)

end ArgumentSplitter

namespace ArgumentSplitter

theorem consumeChar_eq (c : List Char) (i : Nat) (s : ArgumentSplitter) :
    consumeChar c i s =
      (if s.group = GroupType.DoubleQuote then .ok (consumeNormalChar c i s)
      else if c = ['`'] ∧ s.escaped = false then
        .ok { s with backticksPresent := s.backticksPresent + 1 }
      else if s.backticksPresent ≠ 0 then
        if s.group = GroupType.None ∨ s.group = GroupType.New then
          if (handleExtraBackticks i
              { pushArg s with group := GroupType.CodeBacktick }).group =
              GroupType.CodeBacktick then
            .ok (appendChar c i (handleExtraBackticks i
              { pushArg s with group := GroupType.CodeBacktick }))
          else
            .ok (consumeNormalChar c i (handleExtraBackticks i
              { pushArg s with group := GroupType.CodeBacktick }))
        else if s.group = GroupType.CodeBacktick then
          if s.backticksPast = 0 then
            .error (.internal
              "Parsing a code block, but unknown number of backticks to match.")
          else if s.backticksPresent < s.backticksPast then
            .ok (appendChar (List.replicate s.backticksPresent '`') i s)
          else
            if (handleExtraBackticks i (pushArg
                { s with backticksPresent :=
                    s.backticksPresent - s.backticksPast })).group =
                GroupType.CodeBacktick then
              .ok (appendChar c i (handleExtraBackticks i (pushArg
                { s with backticksPresent :=
                    s.backticksPresent - s.backticksPast })))
            else
              .ok (consumeNormalChar c i (handleExtraBackticks i (pushArg
                { s with backticksPresent :=
                    s.backticksPresent - s.backticksPast })))
        else
          .error (.internal
            "Impossible condition: backticks are recorded but group is in unknown state.")
      else .ok (consumeNormalChar c i s)) :=
  rfl

/-- The four tracked properties for the common tail of `consumeChar` that
consumes the run-ending character after `handleExtraBackticks` has run. -/
theorem case_finishRun {c : List Char} {i : Nat} {s3 : ArgumentSplitter}
    {content : List Char} (h3 : ScanInv i s3)
    (hc : c = (content.drop i).take 1) (hp3 : PrefixOk content i s3)
    (hpres3 : s3.backticksPresent = 0) :
    ∃ s', (if s3.group = GroupType.CodeBacktick then
        Except.ok (appendChar c i s3)
      else
        (Except.ok (consumeNormalChar c i s3) :
          Except ArgumentSplitterError ArgumentSplitter)) = Except.ok s' ∧
      ScanInv (i + 1) s' ∧
      s'.startOfCurrentGroup ≤ max s3.startOfCurrentGroup i ∧
      (∃ l, s'.args = s3.args ++ l) ∧
      PrefixOk content (i + 1) s' := by
  by_cases hg3 : s3.group = GroupType.CodeBacktick
  · rw [if_pos hg3]
    obtain ⟨a1, a2, a3, a4⟩ := case_appendChar h3 (fun _ => hpres3)
      (Or.inr (by rw [hg3]; simp)) hp3
    exact ⟨_, rfl, a1, a2, a3, a4⟩
  · rw [if_neg hg3]
    obtain ⟨a1, a2, a3, a4⟩ := consumeNormalChar_sound h3 (Or.inl hpres3) hc hp3
    exact ⟨_, rfl, a1, a2, a3, a4⟩

end ArgumentSplitter

namespace ArgumentSplitter

theorem consumeChar_sound {c : List Char} {i : Nat} {s : ArgumentSplitter}
    {content : List Char} (h : ScanInv i s)
    (hc : c = (content.drop i).take 1) (hp : PrefixOk content i s) :
    ∃ s', consumeChar c i s = .ok s' ∧ ScanInv (i + 1) s' ∧
      s'.startOfCurrentGroup ≤ max s.startOfCurrentGroup i ∧
      (∃ l, s'.args = s.args ++ l) ∧ PrefixOk content (i + 1) s' := by
  rw [consumeChar_eq]
  by_cases hdq : s.group = GroupType.DoubleQuote
  · rw [if_pos hdq]
    obtain ⟨a1, a2, a3, a4⟩ := consumeNormalChar_sound h (Or.inr hdq) hc hp
    exact ⟨_, rfl, a1, a2, a3, a4⟩
  · rw [if_neg hdq]
    by_cases hbt : c = ['`'] ∧ s.escaped = false
    · rw [if_pos hbt]
      refine ⟨_, rfl, ⟨?_, h.hidx, h.hpair, h.htype, h.hnew, h.hnone, h.hcode⟩,
        le_max_left _ _, ⟨[], by simp⟩, ?_⟩
      · show s.startOfCurrentGroup + (s.backticksPresent + 1) ≤ i + 1
        have := h.hstart
        omega
      · refine hp.of_le ?_
        unfold lowBound
        rcases hargs : s.args with _ | ⟨a, t⟩ <;> simp [hargs]
    · rw [if_neg hbt]
      by_cases hpz : s.backticksPresent = 0
      · rw [if_neg (by simp [hpz])]
        obtain ⟨a1, a2, a3, a4⟩ := consumeNormalChar_sound h (Or.inl hpz) hc hp
        exact ⟨_, rfl, a1, a2, a3, a4⟩
      · rw [if_pos hpz]
        by_cases hgr : s.group = GroupType.None ∨ s.group = GroupType.New
        · rw [if_pos hgr]
          -- A backtick run ends while no group is open: flush, resolve the
          -- run, then classify the ending character.
          have hinv1 : ScanInv i (pushArg s) := pushArg_scanInv h
          have hES := @handleExtra_sound i
            { pushArg s with group := GroupType.CodeBacktick }
            (by show (pushArg s).startOfCurrentGroup +
                  (pushArg s).backticksPresent ≤ i
                rw [pushArg_startOfCurrentGroup, pushArg_backticksPresent]
                have := h.hstart
                omega)
            hinv1.hidx hinv1.hpair hinv1.htype (pushArg_next s)
            (fun _ => by
              show 0 < (pushArg s).backticksPresent
              rw [pushArg_backticksPresent]
              omega)
            (Or.inl rfl)
          obtain ⟨hinv3, hpres3, hstart3, ⟨l3, hargs3⟩, hlbnil, hlbcons⟩ := hES
          have hp3 : PrefixOk content i (handleExtraBackticks i
              { pushArg s with group := GroupType.CodeBacktick }) := by
            refine hp.of_le ?_
            rcases hargs2 : (pushArg s).args with _ | ⟨hd, tl⟩
            · rw [hlbnil hargs2]
              obtain ⟨l0, hl0⟩ := pushArg_args_append s
              have hs_nil : s.args = [] := by
                rw [hargs2] at hl0
                exact (List.append_eq_nil.mp hl0.symm).1
              have hgnew : s.group = GroupType.New := by
                rcases hgr with hg | hg
                · exfalso
                  have hpush := pushArg_args_cons s (Or.inl (h.hnone hg))
                  rw [hargs2, hs_nil] at hpush
                  simp at hpush
                · exact hg
              have hlb : lowBound i s = i - s.backticksPresent := by
                unfold lowBound
                rw [hs_nil]
                simp [hgnew]
              rw [hlb]
              show i - (pushArg s).backticksPresent ≤ i - s.backticksPresent
              rw [pushArg_backticksPresent]
            · rw [hlbcons hd tl hargs2]
              rcases hsargs : s.args with _ | ⟨b, t2⟩
              · have hgnone : s.group = GroupType.None := by
                  rcases hgr with hg | hg
                  · exact hg
                  · exfalso
                    have hskip : pushArg s = { s with group := GroupType.New } := by
                      unfold pushArg
                      rw [if_neg (by simp [h.hnew hg, hg])]
                    rw [hskip] at hargs2
                    rw [show ({ s with group := GroupType.New } :
                      ArgumentSplitter).args = s.args from rfl, hsargs] at hargs2
                    simp at hargs2
                have hpush := pushArg_args_cons s (Or.inl (h.hnone hgnone))
                rw [hargs2, hsargs] at hpush
                simp at hpush
                have hlb : lowBound i s = s.startOfCurrentGroup := by
                  unfold lowBound
                  rw [hsargs]
                  simp [hgnone]
                rw [hpush.1, hlb]
              · obtain ⟨l0, hl0⟩ := pushArg_args_append s
                rw [hargs2, hsargs] at hl0
                simp at hl0
                rw [hl0.1, lowBound_cons hsargs]
          obtain ⟨s', hok, b1, b2, b3, b4⟩ := case_finishRun hinv3 hc hp3 hpres3
          refine ⟨s', hok, b1, ?_, ?_, b4⟩
          · have h1 : max (handleExtraBackticks i
                { pushArg s with group := GroupType.CodeBacktick
                }).startOfCurrentGroup i = i := max_eq_right hstart3
            rw [h1] at b2
            exact b2.trans (le_max_right _ _)
          · obtain ⟨l4, hl4⟩ := b3
            obtain ⟨l0, hl0⟩ := pushArg_args_append s
            refine ⟨l0 ++ l3 ++ l4, ?_⟩
            rw [hl4, hargs3]
            rw [show ({ pushArg s with group := GroupType.CodeBacktick } :
              ArgumentSplitter).args = (pushArg s).args from rfl, hl0]
            simp
        · rw [if_neg hgr]
          have hgcode : s.group = GroupType.CodeBacktick := by
            cases hgroup : s.group with
            | New => exact absurd (Or.inr hgroup) hgr
            | None => exact absurd (Or.inl hgroup) hgr
            | DoubleQuote => exact absurd hgroup hdq
            | CodeBacktick => rfl
          rw [if_pos hgcode, if_neg (h.hcode hgcode)]
          by_cases hlt : s.backticksPresent < s.backticksPast
          · rw [if_pos hlt]
            obtain ⟨a1, a2, a3, a4⟩ := case_appendChar h
              (fun hgg => by rw [hgg] at hgcode; exact absurd hgcode (by simp))
              (Or.inr (by rw [hgcode]; simp)) hp
            exact ⟨_, rfl, a1, a2, a3, a4⟩
          · rw [if_neg hlt]
            -- Enough backticks to close the code group: count them off,
            -- flush the token, and resolve what remains of the run.
            have hinv1 : ScanInv i
                { s with backticksPresent :=
                    s.backticksPresent - s.backticksPast } := by
              refine ⟨?_, h.hidx, h.hpair, h.htype, h.hnew, h.hnone, h.hcode⟩
              show s.startOfCurrentGroup +
                (s.backticksPresent - s.backticksPast) ≤ i
              have := h.hstart
              omega
            have hinv2 := pushArg_scanInv hinv1
            have hpush2 := pushArg_args_cons
              { s with backticksPresent := s.backticksPresent - s.backticksPast }
              (Or.inr ⟨by show s.group ≠ GroupType.None; rw [hgcode]; simp,
                by show s.group ≠ GroupType.New; rw [hgcode]; simp⟩)
            have hES := @handleExtra_sound i
              (pushArg { s with backticksPresent :=
                s.backticksPresent - s.backticksPast })
              (by rw [pushArg_startOfCurrentGroup, pushArg_backticksPresent]
                  exact hinv1.hstart)
              hinv2.hidx hinv2.hpair hinv2.htype (pushArg_next _)
              (fun hgg => by
                rw [pushArg_group] at hgg
                exact absurd hgg (by simp))
              (Or.inr (pushArg_group _))
            obtain ⟨hinv3, hpres3, hstart3, ⟨l3, hargs3⟩, hlbnil, hlbcons⟩ := hES
            have hp3 : PrefixOk content i (handleExtraBackticks i (pushArg
                { s with backticksPresent :=
                    s.backticksPresent - s.backticksPast })) := by
              refine hp.of_le ?_
              by_cases hnil2 : s.args = []
              · have hhd : (pushArg { s with backticksPresent :=
                    s.backticksPresent - s.backticksPast }).args =
                      ⟨s.next, s.group, s.startOfCurrentGroup⟩ :: [] := by
                  rw [hpush2]
                  rw [show ({ s with backticksPresent :=
                    s.backticksPresent - s.backticksPast } :
                    ArgumentSplitter).args = s.args from rfl, hnil2]
                  simp
                rw [hlbcons _ _ hhd]
                have hlb : lowBound i s = s.startOfCurrentGroup := by
                  unfold lowBound
                  rw [hnil2]
                  simp [hgcode]
                rw [hlb]
              · obtain ⟨b, t2, hsargs⟩ := List.exists_cons_of_ne_nil hnil2
                have hhd : (pushArg { s with backticksPresent :=
                    s.backticksPresent - s.backticksPast }).args =
                      b :: (t2 ++ [⟨s.next, s.group, s.startOfCurrentGroup⟩]) := by
                  rw [hpush2]
                  rw [show ({ s with backticksPresent :=
                    s.backticksPresent - s.backticksPast } :
                    ArgumentSplitter).args = s.args from rfl, hsargs]
                  simp
                rw [hlbcons _ _ hhd, lowBound_cons hsargs]
            obtain ⟨s', hok, b1, b2, b3, b4⟩ := case_finishRun hinv3 hc hp3 hpres3
            refine ⟨s', hok, b1, ?_, ?_, b4⟩
            · have h1 : max (handleExtraBackticks i (pushArg
                  { s with backticksPresent :=
                      s.backticksPresent - s.backticksPast
                  })).startOfCurrentGroup i = i := max_eq_right hstart3
              rw [h1] at b2
              exact b2.trans (le_max_right _ _)
            · obtain ⟨l4, hl4⟩ := b3
              refine ⟨[⟨s.next, s.group, s.startOfCurrentGroup⟩] ++ l3 ++ l4, ?_⟩
              rw [hl4, hargs3, hpush2]
              rw [show ({ s with backticksPresent :=
                s.backticksPresent - s.backticksPast } :
                ArgumentSplitter).args = s.args from rfl]
              simp

end ArgumentSplitter

namespace ArgumentSplitter

theorem emitCompleteGroups_args_append :
    ∀ (n lb : Nat) (s : ArgumentSplitter),
      ∃ l, (emitCompleteGroups n lb s).args = s.args ++ l := by
  intro n
  induction n with
  | zero => intro lb s; exact ⟨[], by simp [emitCompleteGroups]⟩
  | succ n ih =>
    intro lb s
    obtain ⟨l, hl⟩ := ih (lb + 6) (pushArg (newGroup GroupType.CodeBacktick lb s))
    obtain ⟨l0, hl0⟩ := pushArg_args_append (newGroup GroupType.CodeBacktick lb s)
    refine ⟨l0 ++ l, ?_⟩
    show (emitCompleteGroups n (lb + 6)
      (pushArg (newGroup GroupType.CodeBacktick lb s))).args = _
    rw [hl, hl0]
    rw [show (newGroup GroupType.CodeBacktick lb s).args = s.args from rfl]
    simp

theorem handleExtraBackticks_args_append (i : Nat) (s : ArgumentSplitter) :
    ∃ l, (handleExtraBackticks i s).args = s.args ++ l := by
  rw [handleExtraBackticks_eq]
  obtain ⟨l, hl⟩ := emitCompleteGroups_args_append (s.backticksPresent / 3 / 2)
    (i - s.backticksPresent) s
  split_ifs with h1 h2
  · exact ⟨l, by rw [appendChar_args]; simpa [newGroup] using hl⟩
  · exact ⟨l, by simpa [newGroup] using hl⟩
  · exact ⟨l, by simpa using hl⟩

theorem consumeNormalChar_args (c : List Char) (i : Nat)
    (s : ArgumentSplitter) :
    ∃ l, (consumeNormalChar c i s).args = s.args ++ l := by
  by_cases hbs : c = ['\\']
  · subst hbs
    rw [consumeNormalChar_backslash]
    split_ifs
    · exact ⟨[], by rw [appendChar_args]; simp⟩
    · exact ⟨[], by simp⟩
  · unfold consumeNormalChar
    rw [if_neg hbs]
    split_ifs <;>
      first
        | exact ⟨[], by rw [appendChar_args]; simp⟩
        | exact pushArg_args_append s
        | exact ⟨[], by simp⟩

theorem consumeChar_args {c : List Char} {i : Nat} {s s' : ArgumentSplitter}
    (h : consumeChar c i s = .ok s') : ∃ l, s'.args = s.args ++ l := by
  rw [consumeChar_eq] at h
  by_cases hdq : s.group = GroupType.DoubleQuote
  · rw [if_pos hdq] at h
    have he := Except.ok.inj h
    subst he
    exact consumeNormalChar_args c i s
  · rw [if_neg hdq] at h
    by_cases hbt : c = ['`'] ∧ s.escaped = false
    · rw [if_pos hbt] at h
      have he := Except.ok.inj h
      subst he
      exact ⟨[], by simp⟩
    · rw [if_neg hbt] at h
      by_cases hpz : s.backticksPresent = 0
      · rw [if_neg (by simp [hpz])] at h
        have he := Except.ok.inj h
        subst he
        exact consumeNormalChar_args c i s
      · rw [if_pos hpz] at h
        by_cases hgr : s.group = GroupType.None ∨ s.group = GroupType.New
        · rw [if_pos hgr] at h
          have hargs3 : ∃ l, (handleExtraBackticks i
              { pushArg s with group := GroupType.CodeBacktick }).args =
                s.args ++ l := by
            obtain ⟨l1, h1⟩ := handleExtraBackticks_args_append i
              { pushArg s with group := GroupType.CodeBacktick }
            obtain ⟨l0, h0⟩ := pushArg_args_append s
            refine ⟨l0 ++ l1, ?_⟩
            rw [h1]
            rw [show ({ pushArg s with group := GroupType.CodeBacktick } :
              ArgumentSplitter).args = (pushArg s).args from rfl, h0]
            simp
          by_cases hg3 : (handleExtraBackticks i
              { pushArg s with group := GroupType.CodeBacktick }).group =
                GroupType.CodeBacktick
          · rw [if_pos hg3] at h
            have he := Except.ok.inj h
            subst he
            obtain ⟨l, hl⟩ := hargs3
            exact ⟨l, by rw [appendChar_args, hl]⟩
          · rw [if_neg hg3] at h
            have he := Except.ok.inj h
            subst he
            obtain ⟨l2, hl2⟩ := consumeNormalChar_args c i _
            obtain ⟨l, hl⟩ := hargs3
            exact ⟨l ++ l2, by rw [hl2, hl]; simp⟩
        · rw [if_neg hgr] at h
          by_cases hgc : s.group = GroupType.CodeBacktick
          · rw [if_pos hgc] at h
            by_cases hp0 : s.backticksPast = 0
            · rw [if_pos hp0] at h
              exact absurd h (by simp)
            · rw [if_neg hp0] at h
              by_cases hlt : s.backticksPresent < s.backticksPast
              · rw [if_pos hlt] at h
                have he := Except.ok.inj h
                subst he
                exact ⟨[], by rw [appendChar_args]; simp⟩
              · rw [if_neg hlt] at h
                have hargs3 : ∃ l, (handleExtraBackticks i (pushArg
                    { s with backticksPresent :=
                        s.backticksPresent - s.backticksPast })).args =
                      s.args ++ l := by
                  obtain ⟨l1, h1⟩ := handleExtraBackticks_args_append i (pushArg
                    { s with backticksPresent :=
                        s.backticksPresent - s.backticksPast })
                  obtain ⟨l0, h0⟩ := pushArg_args_append
                    { s with backticksPresent :=
                        s.backticksPresent - s.backticksPast }
                  refine ⟨l0 ++ l1, ?_⟩
                  rw [h1, h0]
                  rw [show ({ s with backticksPresent :=
                    s.backticksPresent - s.backticksPast } :
                    ArgumentSplitter).args = s.args from rfl]
                  simp
                by_cases hg3 : (handleExtraBackticks i (pushArg
                    { s with backticksPresent :=
                        s.backticksPresent - s.backticksPast })).group =
                      GroupType.CodeBacktick
                · rw [if_pos hg3] at h
                  have he := Except.ok.inj h
                  subst he
                  obtain ⟨l, hl⟩ := hargs3
                  exact ⟨l, by rw [appendChar_args, hl]⟩
                · rw [if_neg hg3] at h
                  have he := Except.ok.inj h
                  subst he
                  obtain ⟨l2, hl2⟩ := consumeNormalChar_args c i _
                  obtain ⟨l, hl⟩ := hargs3
                  exact ⟨l ++ l2, by rw [hl2, hl]; simp⟩
          · rw [if_neg hgc] at h
            exact absurd h (by simp)

end ArgumentSplitter

namespace ArgumentSplitter

theorem consumeAll_sound :
    ∀ (cs : List Char) (i : Nat) (s : ArgumentSplitter) (content : List Char),
      content.drop i = cs → i ≤ content.length → ScanInv i s →
      PrefixOk content i s →
      ∃ f, consumeAll cs i s = .ok f ∧ ScanInv (content.length + 1) f ∧
        f.startOfCurrentGroup ≤ max s.startOfCurrentGroup content.length ∧
        (∃ l, f.args = s.args ++ l) ∧
        PrefixOk content (content.length + 1) f := by
  intro cs
  induction cs with
  | nil =>
    intro i s content hdrop hle hinv hp
    have hi : i = content.length := by
      have := List.drop_eq_nil_iff.mp (by rw [hdrop])
      omega
    subst hi
    obtain ⟨s', hok, a1, a2, a3, a4⟩ := consumeChar_sound hinv
      (show ([] : List Char) = (content.drop content.length).take 1 by
        rw [hdrop]; rfl) hp
    exact ⟨s', hok, a1, a2.trans (max_le (le_max_left _ _)
      (le_max_right _ _)), a3, a4⟩
  | cons ch rest ih =>
    intro i s content hdrop hle hinv hp
    have hlt : i < content.length := by
      by_contra hcon
      rw [List.drop_eq_nil_of_le (by omega)] at hdrop
      exact List.noConfusion hdrop
    have hc1 : [ch] = (content.drop i).take 1 := by rw [hdrop]; rfl
    obtain ⟨s1, hok, a1, a2, a3, a4⟩ := consumeChar_sound hinv hc1 hp
    have hdrop1 : content.drop (i + 1) = rest := by
      rw [← List.tail_drop, hdrop]
      rfl
    obtain ⟨f, hfok, b1, b2, b3, b4⟩ := ih (i + 1) s1 content hdrop1
      (by omega) a1 a4
    refine ⟨f, ?_, b1, ?_, ?_, b4⟩
    · show (match consumeChar [ch] i s with
        | .ok s1 => consumeAll rest (i + 1) s1
        | .error e => .error e) = .ok f
      rw [hok]
      exact hfok
    · refine b2.trans (max_le (a2.trans (max_le (le_max_left _ _) ?_))
        (le_max_right _ _))
      exact hlt.le.trans (le_max_right _ _)
    · obtain ⟨l1, hl1⟩ := a3
      obtain ⟨l2, hl2⟩ := b3
      exact ⟨l1 ++ l2, by rw [hl2, hl1]; simp⟩

theorem consumeAll_args :
    ∀ (cs : List Char) (i : Nat) (s f : ArgumentSplitter),
      consumeAll cs i s = .ok f → ∃ l, f.args = s.args ++ l := by
  intro cs
  induction cs with
  | nil =>
    intro i s f h
    exact consumeChar_args h
  | cons ch rest ih =>
    intro i s f h
    have hm : (match consumeChar [ch] i s with
        | .ok s1 => consumeAll rest (i + 1) s1
        | .error e => (.error e : Except ArgumentSplitterError ArgumentSplitter)) =
          .ok f := h
    cases hcc : consumeChar [ch] i s with
    | error e =>
      rw [hcc] at hm
      exact absurd hm (by simp)
    | ok s1 =>
      rw [hcc] at hm
      obtain ⟨l1, h1⟩ := consumeChar_args hcc
      obtain ⟨l2, h2⟩ := ih _ _ _ hm
      exact ⟨l1 ++ l2, by rw [h2, h1]; simp⟩

theorem scanInv_init : ScanInv 0 ArgumentSplitter.init := by
  refine ⟨by simp [init], ?_, ?_, ?_, fun _ => rfl, ?_, ?_⟩
  · intro a ha
    simp [init] at ha
  · simp [init]
  · intro a ha
    simp [init] at ha
  · intro hx
    simp [init] at hx
  · intro hx
    simp [init] at hx

theorem prefixOk_init (content : List Char) :
    PrefixOk content 0 ArgumentSplitter.init := by
  intro k hk _
  simp [lowBound, init] at hk

end ArgumentSplitter

/-- Full soundness of one `split` call on a fresh instance: the scan always
completes without an internal error, the final state satisfies the scan
invariant, and the call succeeds exactly when the final group is `New`. -/
theorem split_sound (content : List Char) :
    ∃ f, ArgumentSplitter.consumeAll content 0 ArgumentSplitter.init = .ok f ∧
      ScanInv (content.length + 1) f ∧
      f.startOfCurrentGroup ≤ content.length ∧
      (∀ a ∈ f.args, a.originalIndex ≤ content.length) ∧
      PrefixOk content (content.length + 1) f ∧
      (f.group = GroupType.New → split content = .ok ⟨content, f.args⟩) ∧
      (f.group ≠ GroupType.New →
        split content = .error (.unterminated f.group)) := by
  obtain ⟨f, hok, hinv, hstart, hargs, hp⟩ :=
    ArgumentSplitter.consumeAll_sound content 0 ArgumentSplitter.init content
      (by simp) (by simp) ArgumentSplitter.scanInv_init
      (ArgumentSplitter.prefixOk_init content)
  have hstart' : f.startOfCurrentGroup ≤ content.length := by
    simpa [ArgumentSplitter.init] using hstart
  have hsp : ArgumentSplitter.init.split content =
      (if f.group ≠ GroupType.New then .error (.unterminated f.group)
       else .ok (⟨content, f.args⟩, f)) := by
    unfold ArgumentSplitter.split
    rw [hok]
  refine ⟨f, hok, hinv, hstart',
    fun a ha => (hinv.hidx a ha).trans hstart', hp, ?_, ?_⟩
  · intro hgg
    unfold split
    rw [hsp, if_neg (by simp [hgg])]
  · intro hgg
    unfold split
    rw [hsp, if_pos hgg]

/-! ## Restore helpers -/

theorem jsSubstring_eq_slice {l : List Char} {a b : Nat} (hab : a ≤ b)
    (hb : b ≤ l.length) : jsSubstring l a b = (l.take b).drop a := by
  show (l.take (max (min a l.length) (min b l.length))).drop
    (min (min a l.length) (min b l.length)) = _
  rw [min_eq_left (hab.trans hb), min_eq_left hb, max_eq_right hab,
    min_eq_left hab]

theorem jsSubstring_to_end {l : List Char} {a : Nat} (ha : a ≤ l.length) :
    jsSubstring l a l.length = l.drop a := by
  show (l.take (max (min a l.length) (min l.length l.length))).drop
    (min (min a l.length) (min l.length l.length)) = _
  rw [min_eq_left ha, min_self, max_eq_right ha, min_eq_left ha,
    List.take_length]

theorem jsSubstring_from_zero (l : List Char) (b : Nat) :
    jsSubstring l 0 b = l.take b := by
  show (l.take (max (min 0 l.length) (min b l.length))).drop
    (min (min 0 l.length) (min b l.length)) = _
  rw [Nat.zero_min, Nat.zero_max, Nat.zero_min, List.drop_zero]
  rcases le_total b l.length with h | h
  · rw [min_eq_left h]
  · rw [min_eq_right h, List.take_length, List.take_of_length_le h]

/-- The whitespace characters recognized by the splitter, as a Boolean
predicate (used to phrase "leading ungrouped whitespace"). -/
def isJsWhitespace (ch : Char) : Bool :=
  ch = ' ' || ch = '\x0C' || ch = '\n' || ch = '\r' || ch = '\t' || ch = '\x0B'

/-! ## The claims -/

/-- Claim C1, counterexample to the claim as stated: on the input
backslash-a, `split` succeeds with one token starting at offset 1, so
`restore(0)` returns just "a" — which is not the input with only leading
ungrouped whitespace removed (the input has no leading whitespace, and the
removed prefix is the escape backslash). -/
theorem C1_counterexample :
    split ['\\', 'a'] =
        .ok ⟨['\\', 'a'], [⟨['a'], GroupType.None, 1⟩]⟩ ∧
      SplitArgumentArray.restore
        ⟨['\\', 'a'], [⟨['a'], GroupType.None, 1⟩]⟩ 0 none = ['a'] ∧
      (['\\', 'a'] : List Char).dropWhile isJsWhitespace = ['\\', 'a'] ∧
      (['a'] : List Char) ≠ ['\\', 'a'] :=
  ⟨rfl, rfl, rfl, by decide⟩

/-- Claim C1 (amended): for every successful split, `restore(i, j)` with
`i < j < n` is exactly the substring of the input from token `i`'s start
offset up to (excluding) token `j`'s start offset; `restore(i)` with no end,
or with an end at or beyond `n`, is the suffix from token `i`'s start offset;
and `restore(0)` is the suffix of the input from the first token's start
offset, the removed prefix consisting only of ungrouped whitespace and
backslash escape characters. -/
theorem C1_main (content : List Char) (r : SplitArgumentArray)
    (h : split content = .ok r) :
    (∀ i j ai aj, r.args[i]? = some ai → r.args[j]? = some aj → i < j →
      r.restore i (some j) =
        (content.take aj.originalIndex).drop ai.originalIndex) ∧
    (∀ i ai, r.args[i]? = some ai →
      r.restore i none = content.drop ai.originalIndex ∧
      ∀ j, r.args.length ≤ j →
        r.restore i (some j) = content.drop ai.originalIndex) ∧
    (∀ a0 l, r.args = a0 :: l →
      r.restore 0 none = content.drop a0.originalIndex ∧
      ∀ k, k < a0.originalIndex → k < content.length →
        isWsOrBackslash (content.getD k ' ')) := by
  obtain ⟨f, hok, hinv, hstart, hidxle, hp, hyes, hno⟩ := split_sound content
  by_cases hg : f.group = GroupType.New
  · have hsp := hyes hg
    rw [h] at hsp
    have hr := Except.ok.inj hsp
    subst hr
    have hargsle : ∀ {e : Nat} {ae : SplitArgument},
        f.args[e]? = some ae → ae.originalIndex ≤ content.length := by
      intro e ae hae
      obtain ⟨hlt, he⟩ := List.getElem?_eq_some.mp hae
      exact hidxle ae (he ▸ f.args.getElem_mem hlt)
    have partB : ∀ i ai, f.args[i]? = some ai →
        SplitArgumentArray.restore ⟨content, f.args⟩ i none =
          content.drop ai.originalIndex ∧
        ∀ j, f.args.length ≤ j →
          SplitArgumentArray.restore ⟨content, f.args⟩ i (some j) =
            content.drop ai.originalIndex := by
      intro i ai hi
      constructor
      · show jsSubstring content _ _ = _
        simp only [hi]
        exact jsSubstring_to_end (hargsle hi)
      · intro j hj
        show jsSubstring content _ _ = _
        simp only [hi, List.getElem?_eq_none hj]
        exact jsSubstring_to_end (hargsle hi)
    refine ⟨?_, partB, ?_⟩
    · intro i j ai aj hi hj hij
      obtain ⟨hilt, hie⟩ := List.getElem?_eq_some.mp hi
      obtain ⟨hjlt, hje⟩ := List.getElem?_eq_some.mp hj
      have hmono : ai.originalIndex ≤ aj.originalIndex := by
        have := List.pairwise_iff_getElem.mp hinv.hpair i j hilt hjlt hij
        rw [hie, hje] at this
        exact this
      show jsSubstring content _ _ = _
      simp only [hi, hj]
      exact jsSubstring_eq_slice hmono (hargsle hj)
    · intro a0 l hargs
      have h0 : f.args[0]? = some a0 := by
        rw [show f.args = a0 :: l from hargs]
        exact List.getElem?_cons_zero
      refine ⟨(partB 0 a0 h0).1, ?_⟩
      intro k hk hklen
      refine hp k ?_ hklen
      rw [ArgumentSplitter.lowBound_cons (show f.args = a0 :: l from hargs)]
      exact hk
  · rw [hno hg] at h
    exact absurd h (by simp)

/-- Claim C1 witness: on the input "a b", `restore(0, 1)` returns the
substring "a " between the two tokens' start offsets. -/
theorem C1_witness :
    SplitArgumentArray.restore
      ⟨['a', ' ', 'b'], [⟨['a'], GroupType.None, 0⟩,
        ⟨['b'], GroupType.None, 2⟩]⟩ 0 (some 1) = ['a', ' '] := by
  have h := (C1_main ['a', ' ', 'b']
    ⟨['a', ' ', 'b'], [⟨['a'], GroupType.None, 0⟩,
      ⟨['b'], GroupType.None, 2⟩]⟩ rfl).1 0 1
    ⟨['a'], GroupType.None, 0⟩ ⟨['b'], GroupType.None, 2⟩ rfl rfl
    (by decide)
  exact h

/-- Claim C2 (code bug): on the input double-backtick, a, backtick, b,
double-backtick, the scanner reaches the branch for a backtick run shorter
than the group's opening width, appends the run as literal content but never
resets the pending counter and never consumes the ending character, so the
call throws the unterminated-group error instead of producing one Code token
with content a-backtick-b. -/
theorem C2_main :
    split ['`', '`', 'a', '`', 'b', '`', '`'] =
      .error (.unterminated GroupType.CodeBacktick) :=
  rfl

/-- Claim C3, counterexample to the claim as stated: six backticks form two
width-3 units, and units pair up two at a time into complete groups, so the
result is exactly one empty Code token, not two. -/
theorem C3_counterexample :
    split ['`', '`', '`', '`', '`', '`'] =
        .ok ⟨['`', '`', '`', '`', '`', '`'],
          [⟨[], GroupType.CodeBacktick, 0⟩]⟩ ∧
      ([⟨[], GroupType.CodeBacktick, 0⟩] : List SplitArgument).length ≠ 2 :=
  ⟨rfl, by decide⟩

/-- Claim C3 (amended): six consecutive backticks split into exactly one
empty Code token, the one complete group formed by pairing the two width-3
units. -/
theorem C3_main :
    split ['`', '`', '`', '`', '`', '`'] =
      .ok ⟨['`', '`', '`', '`', '`', '`'],
        [⟨[], GroupType.CodeBacktick, 0⟩]⟩ :=
  rfl

/-- Claim C4: when a run of `p` pending unescaped backticks is resolved, the
resolver emits exactly `p / 3 / 2` empty Code tokens at offsets 6 apart
starting at the run's start; then, if `p / 3` is odd, a Code group of width 3
stays open whose content is the `p % 3` leftover backticks; otherwise, if
`p % 3` is nonzero, a Code group of width `p % 3` stays open with empty
content; otherwise no group remains open. -/
theorem C4_main (s : ArgumentSplitter) (i : Nat) (hnext : s.next = [])
    (_hgroup : s.group = GroupType.CodeBacktick)
    (hpos : 0 < s.backticksPresent) (_hle : s.backticksPresent ≤ i) :
    (ArgumentSplitter.handleExtraBackticks i s).args =
        s.args ++ (List.range (s.backticksPresent / 3 / 2)).map
          (fun j => ⟨[], GroupType.CodeBacktick,
            i - s.backticksPresent + 6 * j⟩) ∧
    (s.backticksPresent / 3 % 2 = 1 →
      (ArgumentSplitter.handleExtraBackticks i s).group =
          GroupType.CodeBacktick ∧
      (ArgumentSplitter.handleExtraBackticks i s).backticksPast = 3 ∧
      (ArgumentSplitter.handleExtraBackticks i s).next =
        List.replicate (s.backticksPresent % 3) '`') ∧
    (s.backticksPresent / 3 % 2 ≠ 1 → s.backticksPresent % 3 ≠ 0 →
      (ArgumentSplitter.handleExtraBackticks i s).group =
          GroupType.CodeBacktick ∧
      (ArgumentSplitter.handleExtraBackticks i s).backticksPast =
          s.backticksPresent % 3 ∧
      (ArgumentSplitter.handleExtraBackticks i s).next = []) ∧
    (s.backticksPresent / 3 % 2 ≠ 1 → s.backticksPresent % 3 = 0 →
      (ArgumentSplitter.handleExtraBackticks i s).group = GroupType.New) := by
  obtain ⟨hargs, _, hA, hB, hC⟩ :=
    ArgumentSplitter.handleExtraBackticks_spec hnext hpos
  refine ⟨hargs, ?_, ?_, ?_⟩
  · intro hodd
    exact ⟨(hA hodd).1, (hA hodd).2.1, (hA hodd).2.2.1⟩
  · intro hodd hleft
    exact ⟨(hB hodd hleft).1, (hB hodd hleft).2.1, (hB hodd hleft).2.2.1⟩
  · intro hodd hleft
    exact (hC hodd hleft).1

/-- Claim C4 witness: a run of 8 backticks emits one complete (empty) Code
token and leaves open a new Code group of width 2. -/
theorem C4_witness :
    (ArgumentSplitter.handleExtraBackticks 8
        ⟨false, 0, GroupType.CodeBacktick, [], 0, 8, []⟩).args =
        [⟨[], GroupType.CodeBacktick, 0⟩] ∧
      (ArgumentSplitter.handleExtraBackticks 8
        ⟨false, 0, GroupType.CodeBacktick, [], 0, 8, []⟩).group =
        GroupType.CodeBacktick ∧
      (ArgumentSplitter.handleExtraBackticks 8
        ⟨false, 0, GroupType.CodeBacktick, [], 0, 8, []⟩).backticksPast = 2 := by
  obtain ⟨h1, _, h3, _⟩ := C4_main
    ⟨false, 0, GroupType.CodeBacktick, [], 0, 8, []⟩ 8 rfl rfl
    (by decide) (by decide)
  refine ⟨?_, ?_, ?_⟩
  · rw [h1]
    rfl
  · exact (h3 (by decide) (by decide)).1
  · exact (h3 (by decide) (by decide)).2.1

/-- Claim C5: the scan of any input plus the end marker always completes;
`split` succeeds exactly when the resulting scan state's group is the
initial/neutral `New`, and otherwise fails with the unterminated-group
error; in particular a double quote followed by abc fails with the
unterminated-group error. -/
theorem C5_main :
    (∀ content : List Char, ∃ f,
      ArgumentSplitter.consumeAll content 0 ArgumentSplitter.init = .ok f ∧
      (f.group = GroupType.New → split content = .ok ⟨content, f.args⟩) ∧
      (f.group ≠ GroupType.New →
        split content = .error (.unterminated f.group))) ∧
    split ['"', 'a', 'b', 'c'] =
      .error (.unterminated GroupType.DoubleQuote) := by
  constructor
  · intro content
    obtain ⟨f, hok, _, _, _, _, hyes, hno⟩ := split_sound content
    exact ⟨f, hok, hyes, hno⟩
  · rfl

/-- Claim C5 witness: the scan of "a" ends in the neutral state and `split`
returns the single plain token. -/
theorem C5_witness :
    split ['a'] = .ok ⟨['a'], [⟨['a'], GroupType.None, 0⟩]⟩ := by
  obtain ⟨f, hok, hyes, _⟩ := C5_main.1 ['a']
  have hval : ArgumentSplitter.consumeAll ['a'] 0 ArgumentSplitter.init =
      .ok ⟨false, 0, GroupType.New, [], 0, 0,
        [⟨['a'], GroupType.None, 0⟩]⟩ := rfl
  rw [hval] at hok
  have hf := Except.ok.inj hok
  have := hyes (by rw [← hf])
  rw [← hf] at this
  exact this

/-- Claim C6: the two internal-inconsistency throw sites are unreachable:
for every input, `split` either succeeds or fails with the
unterminated-group error, never with the internal error. -/
theorem C6_main (content : List Char) :
    (∃ r, split content = .ok r) ∨
    (∃ g, split content =
      .error (ArgumentSplitterError.unterminated g)) := by
  obtain ⟨f, _, _, _, _, _, hyes, hno⟩ := split_sound content
  by_cases hg : f.group = GroupType.New
  · exact Or.inl ⟨_, hyes hg⟩
  · exact Or.inr ⟨_, hno hg⟩

/-- Claim C7: in every successful split, token start offsets are
non-decreasing in list order, and every token's group type is one of the
three finalized kinds — never the transient `New`. -/
theorem C7_main (content : List Char) (r : SplitArgumentArray)
    (h : split content = .ok r) :
    r.args.Pairwise (fun a b => a.originalIndex ≤ b.originalIndex) ∧
    ∀ a ∈ r.args, a.type = GroupType.None ∨ a.type = GroupType.DoubleQuote ∨
      a.type = GroupType.CodeBacktick := by
  obtain ⟨f, _, hinv, _, _, _, hyes, hno⟩ := split_sound content
  by_cases hg : f.group = GroupType.New
  · have hsp := hyes hg
    rw [h] at hsp
    have hr := Except.ok.inj hsp
    subst hr
    refine ⟨hinv.hpair, ?_⟩
    intro a ha
    have hne := hinv.htype a ha
    cases hta : a.type with
    | New => exact absurd hta hne
    | None => exact Or.inl rfl
    | DoubleQuote => exact Or.inr (Or.inl rfl)
    | CodeBacktick => exact Or.inr (Or.inr rfl)
  · rw [hno hg] at h
    exact absurd h (by simp)

/-- Claim C7 witness: the split of "a b" has non-decreasing start offsets
and only finalized token kinds. -/
theorem C7_witness :
    ([⟨['a'], GroupType.None, 0⟩, ⟨['b'], GroupType.None, 2⟩] :
        List SplitArgument).Pairwise
      (fun a b => a.originalIndex ≤ b.originalIndex) ∧
    ∀ a ∈ ([⟨['a'], GroupType.None, 0⟩, ⟨['b'], GroupType.None, 2⟩] :
        List SplitArgument),
      a.type = GroupType.None ∨ a.type = GroupType.DoubleQuote ∨
        a.type = GroupType.CodeBacktick :=
  C7_main ['a', ' ', 'b']
    ⟨['a', ' ', 'b'], [⟨['a'], GroupType.None, 0⟩,
      ⟨['b'], GroupType.None, 2⟩]⟩ rfl

/-- Claim C8: splitting backslash, double quote, f, o, o succeeds with one
plain (ungrouped) token whose content is the double quote followed by foo:
the escaped quote is a literal character and does not open a quoted group. -/
theorem C8_main :
    split ['\\', '"', 'f', 'o', 'o'] =
      .ok ⟨['\\', '"', 'f', 'o', 'o'],
        [⟨['"', 'f', 'o', 'o'], GroupType.None, 1⟩]⟩ :=
  rfl

/-- Claim C9, counterexample to the claim as stated: with an out-of-range
start index and an in-range end index, `restore` returns a proper prefix of
the original string — neither the empty string nor the whole remainder. -/
theorem C9_counterexample :
    split ['a', ' ', 'b'] =
        .ok ⟨['a', ' ', 'b'], [⟨['a'], GroupType.None, 0⟩,
          ⟨['b'], GroupType.None, 2⟩]⟩ ∧
      SplitArgumentArray.restore
        ⟨['a', ' ', 'b'], [⟨['a'], GroupType.None, 0⟩,
          ⟨['b'], GroupType.None, 2⟩]⟩ 5 (some 1) = ['a', ' '] ∧
      ¬((['a', ' '] : List Char) = [] ∨
        (['a', ' '] : List Char) = ['a', ' ', 'b']) :=
  ⟨rfl, rfl, by decide⟩

/-- Claim C9 (amended): `restore` with an out-of-range start never fails;
the missing start offset is treated as 0, so the call returns the whole
original string when the end is absent or out of range, and otherwise the
prefix of the original up to token `end`'s start offset. -/
theorem C9_main (r : SplitArgumentArray) (start : Nat)
    (h : r.args.length ≤ start) :
    r.restore start none = r.original ∧
    (∀ e, r.args.length ≤ e → r.restore start (some e) = r.original) ∧
    (∀ e ae, r.args[e]? = some ae →
      r.restore start (some e) = r.original.take ae.originalIndex) := by
  have hnone : r.args[start]? = none := List.getElem?_eq_none h
  refine ⟨?_, ?_, ?_⟩
  · show jsSubstring r.original _ _ = _
    simp only [hnone]
    rw [jsSubstring_from_zero, List.take_length]
  · intro e he
    show jsSubstring r.original _ _ = _
    simp only [hnone, List.getElem?_eq_none he]
    rw [jsSubstring_from_zero, List.take_length]
  · intro e ae hae
    show jsSubstring r.original _ _ = _
    simp only [hnone, hae]
    exact jsSubstring_from_zero _ _

/-- Claim C9 witness: out-of-range start with no end returns the whole
original string. -/
theorem C9_witness :
    SplitArgumentArray.restore
      ⟨['a'], [⟨['a'], GroupType.None, 0⟩]⟩ 5 none = ['a'] :=
  (C9_main ⟨['a'], [⟨['a'], GroupType.None, 0⟩]⟩ 5 (by decide)).1

/-- Claim C10: calling `split` again on the same `ArgumentSplitter`
instance does not start fresh: the token list persists, so the second
call's returned sequence begins with every token produced by the first
call. -/
theorem C10_main (s : ArgumentSplitter) (c1 c2 : List Char)
    (r1 r2 : SplitArgumentArray) (s1 s2 : ArgumentSplitter)
    (h1 : s.split c1 = .ok (r1, s1)) (h2 : s1.split c2 = .ok (r2, s2)) :
    ∃ l, r2.args = r1.args ++ l := by
  unfold ArgumentSplitter.split at h1 h2
  cases hA : ArgumentSplitter.consumeAll c1 0 s with
  | error e =>
    rw [hA] at h1
    exact absurd h1 (by simp)
  | ok f1 =>
    rw [hA] at h1
    replace h1 : (if f1.group ≠ GroupType.New then
        Except.error (ArgumentSplitterError.unterminated f1.group)
      else Except.ok ((⟨c1, f1.args⟩ : SplitArgumentArray), f1)) =
        Except.ok (r1, s1) := h1
    by_cases hg1 : f1.group ≠ GroupType.New
    · rw [if_pos hg1] at h1
      exact absurd h1 (by simp)
    · rw [if_neg hg1] at h1
      have hp1 := Except.ok.inj h1
      have hr1 : (⟨c1, f1.args⟩ : SplitArgumentArray) = r1 :=
        congrArg Prod.fst hp1
      have hs1 : f1 = s1 := congrArg Prod.snd hp1
      cases hB : ArgumentSplitter.consumeAll c2 0 s1 with
      | error e =>
        rw [hB] at h2
        exact absurd h2 (by simp)
      | ok f2 =>
        rw [hB] at h2
        replace h2 : (if f2.group ≠ GroupType.New then
            Except.error (ArgumentSplitterError.unterminated f2.group)
          else Except.ok ((⟨c2, f2.args⟩ : SplitArgumentArray), f2)) =
            Except.ok (r2, s2) := h2
        by_cases hg2 : f2.group ≠ GroupType.New
        · rw [if_pos hg2] at h2
          exact absurd h2 (by simp)
        · rw [if_neg hg2] at h2
          have hp2 := Except.ok.inj h2
          have hr2 : (⟨c2, f2.args⟩ : SplitArgumentArray) = r2 :=
            congrArg Prod.fst hp2
          obtain ⟨l, hl⟩ := ArgumentSplitter.consumeAll_args c2 0 s1 f2 hB
          refine ⟨l, ?_⟩
          rw [← hr2, ← hr1]
          show f2.args = f1.args ++ l
          rw [hl, ← hs1]

/-- Claim C10 witness: splitting "a" and then "b" on the same instance
yields, on the second call, the token of the first call followed by the new
token. -/
theorem C10_witness :
    ∃ l, ([⟨['a'], GroupType.None, 0⟩, ⟨['b'], GroupType.None, 0⟩] :
        List SplitArgument) = [⟨['a'], GroupType.None, 0⟩] ++ l :=
  C10_main ArgumentSplitter.init ['a'] ['b']
    ⟨['a'], [⟨['a'], GroupType.None, 0⟩]⟩
    ⟨['b'], [⟨['a'], GroupType.None, 0⟩, ⟨['b'], GroupType.None, 0⟩]⟩
    ⟨false, 0, GroupType.New, [], 0, 0, [⟨['a'], GroupType.None, 0⟩]⟩
    ⟨false, 0, GroupType.New, [], 0, 0,
      [⟨['a'], GroupType.None, 0⟩, ⟨['b'], GroupType.None, 0⟩]⟩
    rfl rfl
